import Mathlib

/-!
Verification of the B+ tree data store of this repository.

The repository ships its test file and the storage-adapter header; the tree
implementation itself (block codec, data-layer builder, bulk loader, reader)
is not part of the sources, so those components are modelled from the
specification, faithful to its words (little-endian 8-byte numbers, the
adopted head-block layout with a stored total length, the bulk-load layering
with the minimum-occupancy redistribution policy, and the reader that
descends `height` node levels and checks the leaf-parent key for equality).
All definitions are executable by structural recursion, so concrete runs
reduce inside the kernel.
-/

namespace BPlusTree

/-- Error taxonomy of the core operations, after spec section 7. -/
inductive TreeError where
  | NotFound
  | NodeOverflow
  | EncodingOverflow
  | StorageError
  | MalformedBlock
deriving DecidableEq, Repr

/-- Bytes are modelled as lists of naturals; all encoders emit values below 256. -/
abbrev Bytes := List Nat

/-- Modelled from the spec: little-endian serialization of a `number` into `w`
bytes (spec sections 3 and 6.2); the tree sources holding the codec are not in
the repository snapshot. -/
def encodeNumber : Nat → Nat → Bytes
  | 0, _ => []
  | w + 1, n => n % 256 :: encodeNumber w (n / 256)

/-- Modelled from the spec: little-endian deserialization of a byte list into
a `number`. -/
def decodeNumber : Bytes → Nat
  | [] => 0
  | b :: bs => b % 256 + 256 * decodeNumber bs

/-- Zero padding of a byte list up to length `n` (spec: blocks are exactly `B`
bytes, shorter content is zero padded). -/
def padTo (n : Nat) (l : Bytes) : Bytes :=
  l ++ List.replicate (n - l.length) 0

/-- Fuel-driven splitting of a byte list into consecutive chunks of size `n`;
the fuel is always instantiated with the length of the list. -/
def chunksGo (n : Nat) : Nat → Bytes → List Bytes
  | 0, _ => []
  | fuel + 1, l => if l = [] then [] else l.take n :: chunksGo n fuel (l.drop n)

/-- Splitting of a byte list into consecutive chunks of size `n` (the final
chunk may be shorter), as in spec section 4.2 step 1. -/
def chunks (n : Nat) (l : Bytes) : List Bytes :=
  chunksGo n l.length l

/-- Fan-out: the maximal number of `(key, child)` entries in one node block,
`F = (B - 8) / 16` (spec section 3). -/
def fanout (B : Nat) : Nat :=
  (B - 8) / 16

/-- The in-memory storage adapter: a block size, an association list holding
the written blocks, and the allocation counter (`locationCounter` of the
header, initially `META + 1`). -/
structure Storage where
  blockSize : Nat
  mem : List (Nat × Bytes)
  counter : Nat
deriving DecidableEq, Repr

/-- Reading an association list of written blocks. -/
def lookupMem (a : Nat) : List (Nat × Bytes) → Option Bytes
  | [] => none
  | e :: rest => if e.1 = a then some e.2 else lookupMem a rest

/-- Modelled from the spec: `get` of the storage adapter, reading one block;
the adapter method bodies are not in the repository snapshot. -/
def Storage.get (s : Storage) (a : Nat) : Option Bytes :=
  lookupMem a s.mem

/-- Modelled from the spec: `set` of the storage adapter, writing one block. -/
def Storage.set (s : Storage) (a : Nat) (d : Bytes) : Storage :=
  ⟨s.blockSize, (a, d) :: s.mem, s.counter⟩

/-- Advancing the allocation counter by one. -/
def Storage.bump (s : Storage) : Storage :=
  ⟨s.blockSize, s.mem, s.counter + 1⟩

/-- Modelled from the spec: `malloc` of the storage adapter returns a fresh
address, distinct from `EMPTY`, `META` and everything returned before; the
header initializes the counter at `META + 1` and the body (not in the
snapshot) hands out consecutive addresses. -/
def Storage.malloc (s : Storage) : Nat × Storage :=
  (s.counter, s.bump)

/-- The `EMPTY` sentinel address of the in-memory adapter (header constant 0). -/
def Storage.emptyAddr (_ : Storage) : Nat := 0

/-- The `META` reserved address of the in-memory adapter (header constant 1). -/
def Storage.metaAddr (_ : Storage) : Nat := 1

/-- A freshly constructed in-memory adapter: empty memory, counter at
`META + 1 = 2`. -/
def Storage.fresh (B : Nat) : Storage :=
  ⟨B, [], 2⟩

/-- The list of addresses handed out by `n` consecutive `malloc` calls. -/
def mallocN (s : Storage) : Nat → List Nat
  | 0 => []
  | n + 1 => (s.malloc).1 :: mallocN (s.malloc).2 n

/-- Consecutive naturals starting at `a`. -/
def consecFrom (a : Nat) : Nat → List Nat
  | 0 => []
  | n + 1 => a :: consecFrom (a + 1) n

/-- Serialization of a list of `(key, child)` pairs, 16 bytes per pair. -/
def pairsBytes : List (Nat × Nat) → Bytes
  | [] => []
  | e :: rest => encodeNumber 8 e.1 ++ (encodeNumber 8 e.2 ++ pairsBytes rest)

/-- Modelled from the spec: the node-block layout, a count followed by the
pairs, zero padded to `B` bytes (spec section 4.1 `encode_node_block`). -/
def nodeBlockBytes (B : Nat) (pairs : List (Nat × Nat)) : Bytes :=
  encodeNumber 8 pairs.length ++ padTo (B - 8) (pairsBytes pairs)

/-- Deserialization of `n` pairs of 8-byte numbers. -/
def decodePairs : Nat → Bytes → List (Nat × Nat)
  | 0, _ => []
  | n + 1, bs =>
    (decodeNumber (bs.take 8), decodeNumber ((bs.drop 8).take 8))
      :: decodePairs n ((bs.drop 8).drop 8)

/-- Modelled from the spec: `decode_node_block`, reading the count and then
the pairs, ignoring tail bytes (spec section 4.1). -/
def decodeNodeBlock (b : Bytes) : List (Nat × Nat) :=
  decodePairs (decodeNumber (b.take 8)) (b.drop 8)

/-- Modelled from the spec: `createNodeBlock` of the tree, encoding the pairs
into a fresh block; it fails with `NodeOverflow` unless `8 + 16 |pairs| ≤ B`
(spec section 4.1). -/
def createNodeBlock (s : Storage) (pairs : List (Nat × Nat)) :
    Except TreeError (Nat × Storage) :=
  if 8 + 16 * pairs.length ≤ s.blockSize then
    .ok (s.counter, (s.bump).set s.counter (nodeBlockBytes s.blockSize pairs))
  else .error .NodeOverflow

/-- Modelled from the spec: `readNodeBlock` of the tree, decoding the block
stored at an address. -/
def readNodeBlock (s : Storage) (a : Nat) : Except TreeError (List (Nat × Nat)) :=
  match s.get a with
  | none => .error .StorageError
  | some b => .ok (decodeNodeBlock b)

/-- Modelled from the spec: layout of a data-chain head block, `next` in bytes
0 to 7, the total payload length in bytes 8 to 15, and a fragment of at most
`B - 16` bytes after that (spec section 4.3, adopted option (a)). -/
def headBlockBytes (B nxt tlen : Nat) (f : Bytes) : Bytes :=
  encodeNumber 8 nxt ++ (encodeNumber 8 tlen ++ padTo (B - 16) f)

/-- Modelled from the spec: layout of a non-head data block, `next` in bytes
0 to 7 followed by a `B - 8` byte fragment (spec section 3). -/
def dataBlockBytes (B nxt : Nat) (f : Bytes) : Bytes :=
  encodeNumber 8 nxt ++ padTo (B - 8) f

/-- Modelled from the spec: allocation and writing of the non-head blocks of
one data chain; the last block points at `tailAddr`. Returns the address the
head must point at. -/
def writeRest : Storage → Nat → List Bytes → Nat × Storage
  | s, tailAddr, [] => (tailAddr, s)
  | s, tailAddr, f :: fs =>
    let r := writeRest s.bump tailAddr fs
    (s.counter, r.2.set s.counter (dataBlockBytes s.blockSize r.1 f))

/-- Modelled from the spec: `build_data_chain` (spec section 4.2 with the
adopted head layout of section 4.3): the head block stores `next`, the total
length and the first `B - 16` payload bytes; the remaining payload is split
into `B - 8` byte fragments; the final block points at `tailAddr`. Returns
the head address. -/
def buildDataChain (s : Storage) (p : Bytes) (tailAddr : Nat) : Nat × Storage :=
  let r := writeRest s.bump tailAddr (chunks (s.blockSize - 8) (p.drop (s.blockSize - 16)))
  (s.counter, r.2.set s.counter (headBlockBytes s.blockSize r.1 p.length (p.take (s.blockSize - 16))))

/-- Head address of a leaf list, `EMPTY` when there is none. -/
def headAddr : List (Nat × Nat) → Nat
  | [] => 0
  | e :: _ => e.2

/-- Modelled from the spec: the data-layer builder, turning each input entry
into a data chain; chains are linked left to right (the final block of one
entry's chain points at the next entry's head, the rightmost at `EMPTY`),
which is what the repository's `ReadDataLayer` test walks. Returns the
`(key, head)` leaf list. -/
def buildDataLayer (s : Storage) : List (Nat × Bytes) → List (Nat × Nat) × Storage
  | [] => ([], s)
  | e :: rest =>
    let r := buildDataLayer s rest
    let c := buildDataChain r.2 e.2 (headAddr r.1)
    ((e.1, c.1) :: r.1, c.2)

/-- Fuel-driven chain walk gathering `rem` more payload bytes by following
`next`; the fuel is always instantiated with `rem`. Returns the concatenated
raw fragments and the final `next` value. -/
def readChainGo (s : Storage) : Nat → Nat → Nat → Except TreeError (Bytes × Nat)
  | 0, addr, rem => if rem = 0 then .ok ([], addr) else .error .MalformedBlock
  | fuel + 1, addr, rem =>
    if rem = 0 then .ok ([], addr)
    else if s.blockSize ≤ 8 then .error .MalformedBlock
    else
      match s.get addr with
      | none => .error .StorageError
      | some b =>
        match readChainGo s fuel (decodeNumber (b.take 8)) (rem - (s.blockSize - 8)) with
        | .error e => .error e
        | .ok r => .ok (b.drop 8 ++ r.1, r.2)

/-- Chain walk gathering `rem` more payload bytes starting at `addr`. -/
def readChainRest (s : Storage) (addr rem : Nat) : Except TreeError (Bytes × Nat) :=
  readChainGo s rem addr rem

/-- Modelled from the spec: `readDataBlock` of the tree, reading one whole
data chain: it reads the stored total length from the head, follows `next`
collecting fragments until enough bytes are gathered, and trims the
concatenation to the total length (spec section 4.4 step 5). Returns the
payload and the `next` value of the chain's final block. -/
def readDataBlock (s : Storage) (addr : Nat) : Except TreeError (Bytes × Nat) :=
  match s.get addr with
  | none => .error .StorageError
  | some b =>
    if decodeNumber ((b.drop 8).take 8) ≤ s.blockSize - 16 then
      .ok (((b.drop 8).drop 8).take (decodeNumber ((b.drop 8).take 8)),
        decodeNumber (b.take 8))
    else
      match readChainRest s (decodeNumber (b.take 8))
          (decodeNumber ((b.drop 8).take 8) - (s.blockSize - 16)) with
      | .error e => .error e
      | .ok r =>
        .ok ((((b.drop 8).drop 8) ++ r.1).take (decodeNumber ((b.drop 8).take 8)), r.2)

/-- Repeated `readDataBlock` walk over `n` entries starting at an address,
as performed by the repository's `ReadDataLayer` test. -/
def walkData (s : Storage) : Nat → Nat → Except TreeError (List Bytes)
  | _, 0 => .ok []
  | addr, n + 1 =>
    match readDataBlock s addr with
    | .error e => .error e
    | .ok r =>
      match walkData s r.2 n with
      | .error e => .error e
      | .ok ps => .ok (r.1 :: ps)

/-- Smallest key of a node group (the key promoted into the parent). -/
def groupKey : List (Nat × Nat) → Nat
  | [] => 0
  | e :: _ => e.1

/-- Fuel-driven partition of a layer into consecutive node groups; the fuel is
always instantiated with the length of the list. -/
def partitionGo {α : Type} (F : Nat) : Nat → List α → List (List α)
  | 0, l => [l]
  | fuel + 1, l =>
    if l.length ≤ F then [l]
    else if l.length < F + (F + 1) / 2 then
      [l.take (F - F / 2), l.drop (F - F / 2)]
    else l.take F :: partitionGo F fuel (l.drop F)

/-- Modelled from the spec: partition of a layer into consecutive groups of
exactly `F` entries, except that a short tail of fewer than `⌈F/2⌉` entries
takes `⌊F/2⌋` entries from the preceding group, and a layer of at most `F`
entries is a single node (spec section 4.3 step 2). -/
def partitionGroups {α : Type} (F : Nat) (l : List α) : List (List α) :=
  partitionGo F l.length l

/-- Modelled from the spec: emission of one node block per group at fresh
addresses, recording `(group min key, group address)` for the next layer
(spec section 4.3 step 2). -/
def emitGroups : Storage → List (List (Nat × Nat)) → List (Nat × Nat) × Storage
  | s, [] => ([], s)
  | s, g :: gs =>
    let s1 := (s.bump).set s.counter (nodeBlockBytes s.blockSize g)
    let r := emitGroups s1 gs
    ((groupKey g, s.counter) :: r.1, r.2)

/-- Fuel-driven bulk-load layering; the fuel is always instantiated with the
length of the current layer. Returns the root address, the tree height in
node levels, and the storage. -/
def buildLayersGo : Storage → Nat → List (Nat × Nat) → Nat × Nat × Storage
  | s, 0, current =>
    (s.counter, 1, (s.bump).set s.counter (nodeBlockBytes s.blockSize current))
  | s, fuel + 1, current =>
    if current.length ≤ fanout s.blockSize ∨ fanout s.blockSize < 2 then
      (s.counter, 1, (s.bump).set s.counter (nodeBlockBytes s.blockSize current))
    else
      let r1 := emitGroups s (partitionGroups (fanout s.blockSize) current)
      let r2 := buildLayersGo r1.2 fuel r1.1
      (r2.1, r2.2.1 + 1, r2.2.2)

/-- Modelled from the spec: the node-layer bulk loader (spec section 4.3),
building index layers bottom up until one root block remains. -/
def buildLayers (s : Storage) (current : List (Nat × Nat)) : Nat × Nat × Storage :=
  buildLayersGo s current.length current

/-- Modelled from the spec: the META block, root address at offset 0, tree
height at offset 8, remainder zeroed (spec sections 4.3 and 6.2). -/
def metaBlockBytes (B root hgt : Nat) : Bytes :=
  encodeNumber 8 root ++ (encodeNumber 8 hgt ++ List.replicate (B - 16) 0)

/-- The constructed tree: its storage, root address, height, and the address
of the leftmost data block (the first entry's chain head). -/
structure Tree where
  storage : Storage
  rootAddr : Nat
  height : Nat
  leftmostDataBlock : Nat
deriving Repr

/-- Modelled from the spec: `construct` (spec section 6.3), building the data
layer and the node layers from a sorted input and committing the root address
and height into META; an empty input stores `EMPTY` as the root. -/
def construct (s : Storage) (entries : List (Nat × Bytes)) : Tree :=
  if entries = [] then
    ⟨s.set 1 (metaBlockBytes s.blockSize 0 0), 0, 0, 0⟩
  else
    let d := buildDataLayer s entries
    let n := buildLayers d.2 d.1
    ⟨n.2.2.set 1 (metaBlockBytes s.blockSize n.1 n.2.1), n.1, n.2.1, headAddr d.1⟩

/-- The search primitive of the reader: the last entry whose key is at most
`k` in a node's (sorted) entry list, the result of the spec's binary search
(spec section 4.4 step 2). -/
def findLE (k : Nat) : List (Nat × Nat) → Option (Nat × Nat)
  | [] => none
  | e :: rest => if e.1 ≤ k then some ((findLE k rest).getD e) else none

/-- One descent step of the reader: read the node block at `addr` and search
it for `k`. -/
def stepNode (s : Storage) (k addr : Nat) : Except TreeError (Nat × Nat) :=
  match s.get addr with
  | none => .error .StorageError
  | some b =>
    match findLE k (decodeNodeBlock b) with
    | none => .error .NotFound
    | some e => .ok e

/-- Modelled from the spec: descent through exactly `height` node levels
(spec section 4.4 step 4, the recommended height-counted descent), returning
the entry found at the leaf-parent level. -/
def descendRec (s : Storage) (k : Nat) : Nat → Nat → Except TreeError (Nat × Nat)
  | _, 0 => .error .MalformedBlock
  | addr, h + 1 =>
    match stepNode s k addr with
    | .error e => .error e
    | .ok e => if h = 0 then .ok e else descendRec s k e.2 h

/-- Modelled from the spec: `lookup` (spec section 4.4): read META, fail with
`NotFound` on an `EMPTY` root, descend `height` node levels, check the
leaf-parent key for exact equality, then reassemble the payload from the data
chain. -/
def lookup (s : Storage) (k : Nat) : Except TreeError Bytes :=
  match s.get 1 with
  | none => .error .StorageError
  | some m =>
    if decodeNumber (m.take 8) = 0 then .error .NotFound
    else
      match descendRec s k (decodeNumber (m.take 8)) (decodeNumber ((m.drop 8).take 8)) with
      | .error e => .error e
      | .ok e =>
        if e.1 = k then
          match readDataBlock s e.2 with
          | .error er => .error er
          | .ok r => .ok r.1
        else .error .NotFound

/-- Smallest key of a node group, key-list form. -/
def headKey : List Nat → Nat
  | [] => 0
  | k :: _ => k

/-- Fuel-driven key-level mirror of the bulk loader: the node blocks of every
level, each block given by its key list, bottom level first. -/
def levelBlocksGo (F : Nat) : Nat → List Nat → List (List (List Nat))
  | 0, ks => [[ks]]
  | fuel + 1, ks =>
    if ks.length ≤ F ∨ F < 2 then [[ks]]
    else partitionGroups F ks :: levelBlocksGo F fuel ((partitionGroups F ks).map headKey)

/-- The node blocks of every level of the constructed index, each block given
by its key list, mirroring `buildLayers` level by level. -/
def levelBlocks (F : Nat) (ks : List Nat) : List (List (List Nat)) :=
  levelBlocksGo F ks.length ks

/-- Keys are strictly ascending along the list. -/
def fstSorted {β : Type} (l : List (Nat × β)) : Prop :=
  l.Pairwise (fun a b => a.1 < b.1)

/-- Well-formed input entries: keys and payload lengths fit in 64 bits and
payload bytes are octets. -/
def entriesOK (entries : List (Nat × Bytes)) : Prop :=
  ∀ e ∈ entries, e.1 < 2 ^ 64 ∧ e.2.length < 2 ^ 64 ∧ ∀ b ∈ e.2, b < 256

/-- Preconditions of the construction theorems: sorted well-formed input, a
usable block size (fan-out at least 2, size below 2^64), and a construction
small enough that all allocated addresses fit in 64 bits. -/
def goodInput (B : Nat) (entries : List (Nat × Bytes)) : Prop :=
  fstSorted entries ∧ entriesOK entries ∧ 2 ≤ fanout B ∧ B < 2 ^ 64 ∧
    (construct (Storage.fresh B) entries).storage.counter ≤ 2 ^ 64

/-- Unwritten addresses start at the allocation counter. -/
def Storage.WF (s : Storage) : Prop :=
  ∀ a, s.counter ≤ a → s.get a = none

/-- Monotone evolution of a storage: the block size is kept, the counter does
not decrease, and every written block stays. -/
def Storage.Extends (s2 s1 : Storage) : Prop :=
  s2.blockSize = s1.blockSize ∧ s1.counter ≤ s2.counter ∧
    ∀ a d, s1.get a = some d → s2.get a = some d

deriving instance DecidableEq for Except

instance {β : Type} (l : List (Nat × β)) : Decidable (fstSorted l) := by
  unfold fstSorted; infer_instance

instance (entries : List (Nat × Bytes)) : Decidable (entriesOK entries) := by
  unfold entriesOK; infer_instance

instance (B : Nat) (entries : List (Nat × Bytes)) : Decidable (goodInput B entries) := by
  unfold goodInput; infer_instance

end BPlusTree

namespace BPlusTree

theorem encodeNumber_length (w n : Nat) : (encodeNumber w n).length = w := by
  induction w generalizing n with
  | zero => rfl
  | succ w ih => simp [encodeNumber, ih]

theorem decode_encodeNumber (w n : Nat) :
    decodeNumber (encodeNumber w n) = n % 256 ^ w := by
  induction w generalizing n with
  | zero => simp [encodeNumber, decodeNumber, Nat.mod_one]
  | succ w ih =>
    simp only [encodeNumber, decodeNumber, ih]
    have hpow : (256 : Nat) ^ (w + 1) = 256 * 256 ^ w := by ring
    rw [hpow, Nat.mod_mul]
    omega

theorem decode_encodeNumber64 {n : Nat} (h : n < 2 ^ 64) :
    decodeNumber (encodeNumber 8 n) = n := by
  have h2 : (256 : Nat) ^ 8 = 2 ^ 64 := by norm_num
  rw [decode_encodeNumber, h2]
  exact Nat.mod_eq_of_lt h

theorem take_len_append (l r : Bytes) : (l ++ r).take l.length = l := by
  simp

theorem drop_len_append (l r : Bytes) : (l ++ r).drop l.length = r := by
  simp

theorem take8_append {l : Bytes} (r : Bytes) (h : l.length = 8) :
    (l ++ r).take 8 = l := by
  rw [← h]; exact take_len_append l r

theorem drop8_append {l : Bytes} (r : Bytes) (h : l.length = 8) :
    (l ++ r).drop 8 = r := by
  rw [← h]; exact drop_len_append l r

theorem padTo_of_le {n : Nat} {l : Bytes} (h : n ≤ l.length) : padTo n l = l := by
  simp [padTo, Nat.sub_eq_zero_of_le h]

theorem decodePairs_pairsBytes :
    ∀ (pairs : List (Nat × Nat)) (rest : Bytes),
      (∀ e ∈ pairs, e.1 < 2 ^ 64 ∧ e.2 < 2 ^ 64) →
      decodePairs pairs.length (pairsBytes pairs ++ rest) = pairs := by
  intro pairs
  induction pairs with
  | nil => intro rest _; rfl
  | cons e tl ih =>
    intro rest h
    have he := h e (by simp)
    have htl : ∀ x ∈ tl, x.1 < 2 ^ 64 ∧ x.2 < 2 ^ 64 := fun x hx => h x (by simp [hx])
    show decodePairs (tl.length + 1) _ = _
    simp only [decodePairs, pairsBytes, List.append_assoc]
    rw [take8_append _ (encodeNumber_length 8 e.1),
      drop8_append _ (encodeNumber_length 8 e.1),
      take8_append _ (encodeNumber_length 8 e.2),
      drop8_append _ (encodeNumber_length 8 e.2),
      decode_encodeNumber64 he.1, decode_encodeNumber64 he.2, ih rest htl]

theorem decodeNodeBlock_nodeBlockBytes (B : Nat) (pairs : List (Nat × Nat))
    (hcnt : pairs.length < 2 ^ 64)
    (hb : ∀ e ∈ pairs, e.1 < 2 ^ 64 ∧ e.2 < 2 ^ 64) :
    decodeNodeBlock (nodeBlockBytes B pairs) = pairs := by
  unfold decodeNodeBlock nodeBlockBytes padTo
  rw [take8_append _ (encodeNumber_length 8 pairs.length),
    drop8_append _ (encodeNumber_length 8 pairs.length),
    decode_encodeNumber64 hcnt,
    decodePairs_pairsBytes pairs _ hb]

theorem fanout_mul_le {B : Nat} : 16 * fanout B ≤ B - 8 := by
  unfold fanout
  have := Nat.div_mul_le_self (B - 8) 16
  omega

/-- Claim C2: for every pair list of length at most the fan-out (with 64-bit
values and a usable 64-bit block size), creating a node block and reading it
back returns the pairs unchanged. -/
theorem createNodeBlock_roundtrip (s : Storage) (pairs : List (Nat × Nat))
    (hB8 : 8 ≤ s.blockSize) (hB64 : s.blockSize < 2 ^ 64)
    (hF : pairs.length ≤ fanout s.blockSize)
    (hb : ∀ e ∈ pairs, e.1 < 2 ^ 64 ∧ e.2 < 2 ^ 64) :
    ∃ a s2, createNodeBlock s pairs = .ok (a, s2) ∧ readNodeBlock s2 a = .ok pairs := by
  have hcnt : pairs.length < 2 ^ 64 := by
    have h1 : fanout s.blockSize ≤ s.blockSize := by
      unfold fanout; have := Nat.div_le_self (s.blockSize - 8) 16; omega
    omega
  have hle : 8 + 16 * pairs.length ≤ s.blockSize := by
    have h1 : 16 * pairs.length ≤ 16 * fanout s.blockSize := by omega
    have h2 := fanout_mul_le (B := s.blockSize)
    omega
  refine ⟨s.counter, (s.bump).set s.counter (nodeBlockBytes s.blockSize pairs), ?_, ?_⟩
  · simp [createNodeBlock, hle]
  · simp [readNodeBlock, Storage.get, Storage.set, Storage.bump, lookupMem]
    exact decodeNodeBlock_nodeBlockBytes _ _ hcnt hb

/-- Witness for C2: the pair list of the repository's `ReadNodeBlock` test at
block size 64 round-trips. -/
theorem createNodeBlock_roundtrip_witness :
    ∃ a s2, createNodeBlock (Storage.fresh 64) [(0, 0), (17, 19), (34, 38)] = .ok (a, s2) ∧
      readNodeBlock s2 a = .ok [(0, 0), (17, 19), (34, 38)] :=
  createNodeBlock_roundtrip (Storage.fresh 64) [(0, 0), (17, 19), (34, 38)]
    (by decide) (by decide) (by decide) (by decide)

/-- Claim C3: creating a node block succeeds whenever `8 + 16 |pairs| ≤ B`,
and fails with `NodeOverflow` whenever the pair count exceeds the fan-out. -/
theorem createNodeBlock_overflow (s : Storage) (pairs : List (Nat × Nat)) :
    (8 + 16 * pairs.length ≤ s.blockSize →
      ∃ a s2, createNodeBlock s pairs = .ok (a, s2)) ∧
    (fanout s.blockSize < pairs.length →
      createNodeBlock s pairs = .error .NodeOverflow) := by
  constructor
  · intro hle
    exact ⟨s.counter, (s.bump).set s.counter (nodeBlockBytes s.blockSize pairs),
      by simp [createNodeBlock, hle]⟩
  · intro hgt
    have hnle : ¬ 8 + 16 * pairs.length ≤ s.blockSize := by
      intro hle
      have : pairs.length ≤ fanout s.blockSize := by
        unfold fanout
        rw [Nat.le_div_iff_mul_le (by norm_num)]
        omega
      omega
    simp [createNodeBlock, hnle]

/-- Witness for C3: at block size 64, three pairs fit and 32 pairs overflow,
as in the repository's `CreateNodeBlock` and `CreateNodeBlockTooBig` tests. -/
theorem createNodeBlock_overflow_witness :
    (∃ a s2, createNodeBlock (Storage.fresh 64) [(0, 0), (17, 19), (34, 38)] = .ok (a, s2)) ∧
      createNodeBlock (Storage.fresh 64) (List.replicate 32 (0, 0)) = .error .NodeOverflow :=
  ⟨(createNodeBlock_overflow (Storage.fresh 64) [(0, 0), (17, 19), (34, 38)]).1 (by decide),
    (createNodeBlock_overflow (Storage.fresh 64) (List.replicate 32 (0, 0))).2 (by decide)⟩

theorem mallocN_eq_consecFrom (s : Storage) (n : Nat) :
    mallocN s n = consecFrom s.counter n := by
  induction n generalizing s with
  | zero => rfl
  | succ n ih => simp [mallocN, consecFrom, Storage.malloc, Storage.bump, ih]

theorem mem_consecFrom {x : Nat} :
    ∀ (n a : Nat), x ∈ consecFrom a n ↔ a ≤ x ∧ x < a + n := by
  intro n
  induction n with
  | zero => intro a; simp [consecFrom]
  | succ n ih =>
    intro a
    simp only [consecFrom, List.mem_cons, ih]
    omega

theorem consecFrom_nodup : ∀ (n a : Nat), (consecFrom a n).Nodup := by
  intro n
  induction n with
  | zero => intro a; simp [consecFrom]
  | succ n ih =>
    intro a
    refine List.nodup_cons.mpr ⟨?_, ih (a + 1)⟩
    rw [mem_consecFrom]
    omega

/-- Claim C8: every address handed out by a sequence of `malloc` calls on a
fresh in-memory adapter differs from `EMPTY`, from `META`, and from every
address handed out earlier in the sequence. -/
theorem malloc_addresses_fresh (B n : Nat) :
    (∀ a ∈ mallocN (Storage.fresh B) n,
      a ≠ (Storage.fresh B).emptyAddr ∧ a ≠ (Storage.fresh B).metaAddr) ∧
    (mallocN (Storage.fresh B) n).Nodup := by
  rw [mallocN_eq_consecFrom]
  constructor
  · intro a ha
    rw [mem_consecFrom] at ha
    unfold Storage.emptyAddr Storage.metaAddr
    show a ≠ 0 ∧ a ≠ 1
    simp [Storage.fresh] at ha
    omega
  · exact consecFrom_nodup n _

/-- Witness for C8: the first five malloc results on a fresh adapter of block
size 64 avoid the sentinels and are pairwise distinct. -/
theorem malloc_addresses_fresh_witness :
    (2 ∈ mallocN (Storage.fresh 64) 5 →
      2 ≠ (Storage.fresh 64).emptyAddr ∧ 2 ≠ (Storage.fresh 64).metaAddr) ∧
    (mallocN (Storage.fresh 64) 5).Nodup :=
  ⟨fun h => (malloc_addresses_fresh 64 5).1 2 h, (malloc_addresses_fresh 64 5).2⟩

/-- Claim C9: on the in-memory adapter, `empty` is the concrete address 0,
`meta` is 1, and `malloc` hands out the consecutive integers starting at 2. -/
theorem inMemory_concrete_addresses (B n : Nat) :
    (Storage.fresh B).emptyAddr = 0 ∧ (Storage.fresh B).metaAddr = 1 ∧
    mallocN (Storage.fresh B) n = consecFrom 2 n := by
  refine ⟨rfl, rfl, ?_⟩
  rw [mallocN_eq_consecFrom]
  rfl

end BPlusTree

namespace BPlusTree

@[simp] theorem set_counter (s : Storage) (a : Nat) (d : Bytes) :
    (s.set a d).counter = s.counter := rfl

@[simp] theorem set_blockSize (s : Storage) (a : Nat) (d : Bytes) :
    (s.set a d).blockSize = s.blockSize := rfl

@[simp] theorem bump_counter (s : Storage) : s.bump.counter = s.counter + 1 := rfl

@[simp] theorem bump_blockSize (s : Storage) : s.bump.blockSize = s.blockSize := rfl

@[simp] theorem get_bump (s : Storage) (a : Nat) : s.bump.get a = s.get a := rfl

theorem get_set_self (s : Storage) (a : Nat) (d : Bytes) : (s.set a d).get a = some d := by
  simp [Storage.set, Storage.get, lookupMem]

theorem get_set_ne (s : Storage) {a b : Nat} (d : Bytes) (h : a ≠ b) :
    (s.set a d).get b = s.get b := by
  simp [Storage.set, Storage.get, lookupMem, h]

theorem extends_refl (s : Storage) : s.Extends s :=
  ⟨rfl, Nat.le_refl _, fun _ _ h => h⟩

theorem extends_trans {s3 s2 s1 : Storage} (h32 : s3.Extends s2) (h21 : s2.Extends s1) :
    s3.Extends s1 :=
  ⟨h32.1.trans h21.1, h21.2.1.trans h32.2.1, fun a d h => h32.2.2 a d (h21.2.2 a d h)⟩

theorem extends_set_fresh {s : Storage} {a : Nat} (d : Bytes) (h : s.get a = none) :
    (s.set a d).Extends s := by
  refine ⟨rfl, Nat.le_refl _, fun b e hb => ?_⟩
  rcases eq_or_ne a b with rfl | hne
  · rw [h] at hb; exact absurd hb (by simp)
  · rw [get_set_ne s d hne]; exact hb

theorem extends_bump (s : Storage) : s.bump.Extends s :=
  ⟨rfl, Nat.le_succ _, fun _ _ h => h⟩

theorem wf_fresh (B : Nat) : (Storage.fresh B).WF := fun _ _ => rfl

theorem wf_bump {s : Storage} (h : s.WF) : s.bump.WF := fun a ha =>
  h a (by simp at ha; omega)

theorem wf_set {s : Storage} {a : Nat} (d : Bytes) (h : s.WF) (ha : a < s.counter) :
    (s.set a d).WF := by
  intro b hb
  simp at hb
  rw [get_set_ne s d (by omega)]
  exact h b hb

theorem extends_of_below {s2 s : Storage} (hbs : s2.blockSize = s.blockSize)
    (hc : s.counter ≤ s2.counter) (hW : s.WF)
    (hag : ∀ a, a < s.counter → s2.get a = s.get a) : s2.Extends s := by
  refine ⟨hbs, hc, fun a d h => ?_⟩
  by_cases hlt : a < s.counter
  · rw [hag a hlt]; exact h
  · rw [hW a (by omega)] at h; exact absurd h (by simp)

theorem chunksGo_congr {n : Nat} (hn : 1 ≤ n) :
    ∀ (f1 : Nat) (l : Bytes) (f2 : Nat), l.length ≤ f1 → l.length ≤ f2 →
      chunksGo n f1 l = chunksGo n f2 l := by
  intro f1
  induction f1 with
  | zero =>
    intro l f2 h1 h2
    have hl : l = [] := List.eq_nil_of_length_eq_zero (by omega)
    subst hl
    cases f2 <;> simp [chunksGo]
  | succ f1 ih =>
    intro l f2 h1 h2
    cases f2 with
    | zero =>
      have hl : l = [] := List.eq_nil_of_length_eq_zero (by omega)
      subst hl
      simp [chunksGo]
    | succ f2 =>
      simp only [chunksGo]
      by_cases hl : l = []
      · simp [hl]
      · rw [if_neg hl, if_neg hl]
        have h3 : (l.drop n).length ≤ f1 := by
          have := List.length_pos.mpr hl
          simp [List.length_drop]; omega
        have h4 : (l.drop n).length ≤ f2 := by
          have := List.length_pos.mpr hl
          simp [List.length_drop]; omega
        rw [ih (l.drop n) f2 h3 h4]

theorem chunks_cons {n : Nat} (hn : 1 ≤ n) (l : Bytes) (hl : l ≠ []) :
    chunks n l = l.take n :: chunks n (l.drop n) := by
  unfold chunks
  cases hlen : l.length with
  | zero => exact absurd (List.eq_nil_of_length_eq_zero hlen) hl
  | succ m =>
    simp only [chunksGo]
    rw [if_neg hl]
    congr 1
    apply chunksGo_congr hn
    · simp [List.length_drop]; omega
    · exact Nat.le_refl _

theorem chunks_nil (n : Nat) : chunks n [] = [] := rfl

theorem chunks_eq_nil_iff {n : Nat} (hn : 1 ≤ n) (l : Bytes) :
    chunks n l = [] ↔ l = [] := by
  constructor
  · intro h
    by_contra hl
    rw [chunks_cons hn l hl] at h
    exact absurd h (by simp)
  · intro h; subst h; rfl

theorem chunks_length {n : Nat} (hn : 1 ≤ n) :
    ∀ (fuel : Nat) (l : Bytes), l.length ≤ fuel →
      (chunks n l).length = (l.length + n - 1) / n := by
  intro fuel
  induction fuel with
  | zero =>
    intro l h
    have hl : l = [] := List.eq_nil_of_length_eq_zero (by omega)
    subst hl
    simp [chunks_nil, Nat.div_eq_of_lt (show n - 1 < n by omega)]
  | succ fuel ih =>
    intro l h
    by_cases hl : l = []
    · subst hl
      simp [chunks_nil, Nat.div_eq_of_lt (show n - 1 < n by omega)]
    · rw [chunks_cons hn l hl]
      have hpos : 0 < l.length := List.length_pos.mpr hl
      have hdl : (l.drop n).length = l.length - n := by simp [List.length_drop]
      rw [List.length_cons, ih (l.drop n) (by omega), hdl]
      by_cases hle : l.length ≤ n
      · have h0 : l.length - n = 0 := by omega
        rw [h0]
        have h1 : (0 + n - 1) / n = 0 := Nat.div_eq_of_lt (by omega)
        have h2 : l.length + n - 1 = (l.length - 1) + n := by omega
        rw [h1, h2, Nat.add_div_right _ (by omega), Nat.div_eq_of_lt (by omega)]
      · have h2 : l.length + n - 1 = (l.length - n + n - 1) + n := by omega
        rw [h2, Nat.add_div_right _ (by omega)]

end BPlusTree

namespace BPlusTree

theorem writeRest_nil_fst (s : Storage) (t : Nat) : (writeRest s t []).1 = t := rfl

theorem writeRest_nil_snd (s : Storage) (t : Nat) : (writeRest s t []).2 = s := rfl

theorem writeRest_cons_fst (s : Storage) (t : Nat) (f : Bytes) (fs : List Bytes) :
    (writeRest s t (f :: fs)).1 = s.counter := rfl

theorem writeRest_cons_snd (s : Storage) (t : Nat) (f : Bytes) (fs : List Bytes) :
    (writeRest s t (f :: fs)).2 =
      (writeRest s.bump t fs).2.set s.counter
        (dataBlockBytes s.blockSize (writeRest s.bump t fs).1 f) := rfl

theorem writeRest_basic :
    ∀ (fs : List Bytes) (s : Storage) (t : Nat),
      (writeRest s t fs).2.counter = s.counter + fs.length ∧
      (writeRest s t fs).2.blockSize = s.blockSize ∧
      (∀ a, a < s.counter → (writeRest s t fs).2.get a = s.get a) ∧
      (s.WF → (writeRest s t fs).2.WF) := by
  intro fs
  induction fs with
  | nil => intro s t; exact ⟨rfl, rfl, fun _ _ => rfl, id⟩
  | cons f fs ih =>
    intro s t
    obtain ⟨ihc, ihb, ihg, ihw⟩ := ih s.bump t
    rw [writeRest_cons_snd]
    simp only [set_counter, set_blockSize, bump_counter, bump_blockSize,
      List.length_cons] at *
    refine ⟨by omega, ihb, ?_, ?_⟩
    · intro a ha
      rw [get_set_ne _ _ (by omega)]
      rw [ihg a (by omega)]
      rfl
    · intro hW
      exact wf_set _ (ihw (wf_bump hW)) (by omega)

theorem writeRest_content :
    ∀ (fs : List Bytes) (s : Storage) (t : Nat), s.WF →
      ∀ a, s.counter ≤ a → a < (writeRest s t fs).2.counter →
        ∃ nx f, f ∈ fs ∧ (writeRest s t fs).2.get a = some (dataBlockBytes s.blockSize nx f) := by
  intro fs
  induction fs with
  | nil =>
    intro s t _ a ha1 ha2
    rw [writeRest_nil_snd] at ha2
    omega
  | cons f fs ih =>
    intro s t hW a ha1 ha2
    rw [writeRest_cons_snd] at ha2 ⊢
    rcases eq_or_ne s.counter a with rfl | hne
    · exact ⟨(writeRest s.bump t fs).1, f, by simp, get_set_self _ _ _⟩
    · rw [get_set_ne _ _ hne]
      simp only [set_counter] at ha2
      obtain ⟨nx, f2, hmem, hget⟩ :=
        ih s.bump t (wf_bump hW) a (by simp; omega) ha2
      rw [bump_blockSize] at hget
      exact ⟨nx, f2, by simp [hmem], hget⟩

theorem writeRest_last :
    ∀ (fs : List Bytes) (s : Storage) (t : Nat), fs ≠ [] →
      ∃ f, f ∈ fs ∧
        (writeRest s t fs).2.get ((writeRest s t fs).2.counter - 1) =
          some (dataBlockBytes s.blockSize t f) := by
  intro fs
  induction fs with
  | nil => intro s t h; exact absurd rfl h
  | cons f fs ih =>
    intro s t _
    rcases List.eq_nil_or_concat fs with hfs | _
    · subst hfs
      refine ⟨f, by simp, ?_⟩
      rw [writeRest_cons_snd, writeRest_nil_snd, writeRest_nil_fst]
      simp only [set_counter, bump_counter, Nat.add_sub_cancel]
      exact get_set_self _ _ _
    · by_cases hfs : fs = []
      · subst hfs
        refine ⟨f, by simp, ?_⟩
        rw [writeRest_cons_snd, writeRest_nil_snd, writeRest_nil_fst]
        simp only [set_counter, bump_counter, Nat.add_sub_cancel]
        exact get_set_self _ _ _
      · obtain ⟨f2, hmem, hget⟩ := ih s.bump t hfs
        refine ⟨f2, by simp [hmem], ?_⟩
        rw [writeRest_cons_snd]
        simp only [set_counter]
        have hc := (writeRest_basic fs s.bump t).1
        have hlen : 1 ≤ fs.length := by
          cases fs with
          | nil => exact absurd rfl hfs
          | cons a b => simp
        rw [get_set_ne _ _ (by simp at hc; omega)]
        rw [bump_blockSize] at hget
        exact hget

theorem readChainGo_congr (s : Storage) :
    ∀ (f1 addr rem f2 : Nat), rem ≤ f1 → rem ≤ f2 →
      readChainGo s f1 addr rem = readChainGo s f2 addr rem := by
  intro f1
  induction f1 with
  | zero =>
    intro addr rem f2 h1 h2
    have h0 : rem = 0 := by omega
    subst h0
    cases f2 <;> simp [readChainGo]
  | succ f1 ih =>
    intro addr rem f2 h1 h2
    cases f2 with
    | zero =>
      have h0 : rem = 0 := by omega
      subst h0
      simp [readChainGo]
    | succ f2 =>
      simp only [readChainGo]
      by_cases h0 : rem = 0
      · simp [h0]
      · rw [if_neg h0, if_neg h0]
        by_cases hb8 : s.blockSize ≤ 8
        · simp [hb8]
        · rw [if_neg hb8, if_neg hb8]
          cases hget : s.get addr with
          | none => rfl
          | some b =>
            dsimp only
            rw [ih (decodeNumber (b.take 8)) (rem - (s.blockSize - 8)) f2
              (by omega) (by omega)]

theorem readChainRest_eq (s : Storage) (addr rem : Nat) :
    readChainRest s addr rem =
      if rem = 0 then .ok ([], addr)
      else if s.blockSize ≤ 8 then .error .MalformedBlock
      else
        match s.get addr with
        | none => .error .StorageError
        | some b =>
          match readChainRest s (decodeNumber (b.take 8)) (rem - (s.blockSize - 8)) with
          | .error e => .error e
          | .ok r => .ok (b.drop 8 ++ r.1, r.2) := by
  unfold readChainRest
  cases rem with
  | zero => simp [readChainGo]
  | succ k =>
    simp only [readChainGo]
    rw [if_neg (by omega)]
    by_cases hb8 : s.blockSize ≤ 8
    · simp [hb8]
    · rw [if_neg hb8, if_neg hb8]
      cases hget : s.get addr with
      | none => rfl
      | some b =>
        dsimp only
        rw [readChainGo_congr s k (decodeNumber (b.take 8)) (k + 1 - (s.blockSize - 8))
          (k + 1 - (s.blockSize - 8)) (by omega) (Nat.le_refl _),
          if_neg (show ¬(k + 1 = 0) by omega)]

theorem readChainRest_zero (s : Storage) (addr : Nat) :
    readChainRest s addr 0 = .ok ([], addr) := rfl

end BPlusTree

namespace BPlusTree

theorem writeRest_read :
    ∀ (n : Nat) (q : Bytes) (s : Storage) (t : Nat),
      q.length ≤ n → q ≠ [] → 40 ≤ s.blockSize → s.WF → t < 2 ^ 64 →
      (writeRest s t (chunks (s.blockSize - 8) q)).2.counter ≤ 2 ^ 64 →
      ∀ s2, s2.Extends (writeRest s t (chunks (s.blockSize - 8) q)).2 →
        ∃ m, readChainRest s2 (writeRest s t (chunks (s.blockSize - 8) q)).1 q.length =
          .ok (q ++ List.replicate m 0, t) := by
  intro n
  induction n with
  | zero =>
    intro q s t hlen hne _ _ _ _ _ _
    exact absurd (List.eq_nil_of_length_eq_zero (by omega)) hne
  | succ n ih =>
    intro q s t hlen hne hB hW ht hcnt s2 hext
    have hn8 : (1 : Nat) ≤ s.blockSize - 8 := by omega
    have hqpos : 0 < q.length := List.length_pos.mpr hne
    have hch := chunks_cons hn8 q hne
    by_cases hq2 : q.drop (s.blockSize - 8) = []
    · have hql : q.length ≤ s.blockSize - 8 := List.drop_eq_nil_iff.mp hq2
      have hch2 : chunks (s.blockSize - 8) q = [q] := by
        rw [hch, hq2, chunks_nil]
        congr 1
        exact List.take_of_length_le hql
      rw [hch2] at hcnt hext ⊢
      rw [writeRest_cons_fst]
      rw [writeRest_cons_snd, writeRest_nil_snd, writeRest_nil_fst] at hext
      have hget2 : s2.get s.counter = some (dataBlockBytes s.blockSize t q) :=
        hext.2.2 _ _ (get_set_self _ _ _)
      have hbs2 : s2.blockSize = s.blockSize := by rw [hext.1]; rfl
      refine ⟨s.blockSize - 8 - q.length, ?_⟩
      rw [readChainRest_eq, if_neg (show ¬(q.length = 0) by omega), hbs2,
        if_neg (show ¬(s.blockSize ≤ 8) by omega), hget2]
      dsimp only
      have htake : (dataBlockBytes s.blockSize t q).take 8 = encodeNumber 8 t := by
        unfold dataBlockBytes
        exact take8_append _ (encodeNumber_length 8 t)
      have hdrop : (dataBlockBytes s.blockSize t q).drop 8 = padTo (s.blockSize - 8) q := by
        unfold dataBlockBytes
        exact drop8_append _ (encodeNumber_length 8 t)
      rw [htake, decode_encodeNumber64 ht, hdrop,
        show q.length - (s.blockSize - 8) = 0 by omega, readChainRest_zero]
      dsimp only
      simp [padTo]
    · have hql : s.blockSize - 8 < q.length := by
        rcases Nat.lt_or_ge (s.blockSize - 8) q.length with h | h
        · exact h
        · exact absurd (List.drop_eq_nil_iff.mpr h) hq2
      have hrest_ne : chunks (s.blockSize - 8) (q.drop (s.blockSize - 8)) ≠ [] :=
        fun h => hq2 ((chunks_eq_nil_iff hn8 _).mp h)
      rw [hch] at hcnt hext ⊢
      rw [writeRest_cons_fst]
      rw [writeRest_cons_snd] at hcnt hext
      set r := writeRest s.bump t (chunks (s.blockSize - 8) (q.drop (s.blockSize - 8))) with hrdef
      simp only [set_counter] at hcnt
      have hrbasic := writeRest_basic (chunks (s.blockSize - 8) (q.drop (s.blockSize - 8))) s.bump t
      rw [← hrdef] at hrbasic
      obtain ⟨hrc, hrb, hrg, hrw⟩ := hrbasic
      obtain ⟨c0, cs0, hc0⟩ := List.exists_cons_of_ne_nil hrest_ne
      have hrfst : r.1 = s.counter + 1 := by
        rw [hrdef, hc0, writeRest_cons_fst]
        rfl
      have hlenrest : 1 ≤ (chunks (s.blockSize - 8) (q.drop (s.blockSize - 8))).length := by
        rw [hc0]
        simp
      have hr1lt : r.1 < 2 ^ 64 := by
        rw [hrfst]
        simp only [bump_counter] at hrc
        omega
      have hget2 : s2.get s.counter =
          some (dataBlockBytes s.blockSize r.1 (q.take (s.blockSize - 8))) :=
        hext.2.2 _ _ (get_set_self _ _ _)
      have hbs2 : s2.blockSize = s.blockSize := by
        rw [hext.1, set_blockSize, hrb, bump_blockSize]
      have hfresh : r.2.get s.counter = none := by
        rw [hrg s.counter (by simp)]
        exact hW s.counter (Nat.le_refl _)
      have hextr : s2.Extends r.2 :=
        extends_trans hext (extends_set_fresh _ hfresh)
      have hih := ih (q.drop (s.blockSize - 8)) s.bump t
        (by simp only [List.length_drop]; omega) hq2
        (by simpa using hB) (wf_bump hW) ht (by simpa using hcnt) s2 (by simpa using hextr)
      simp only [bump_blockSize] at hih
      rw [← hrdef] at hih
      obtain ⟨m, hm⟩ := hih
      refine ⟨m, ?_⟩
      rw [readChainRest_eq, if_neg (show ¬(q.length = 0) by omega), hbs2,
        if_neg (show ¬(s.blockSize ≤ 8) by omega), hget2]
      dsimp only
      have htake : (dataBlockBytes s.blockSize r.1 (q.take (s.blockSize - 8))).take 8 =
          encodeNumber 8 r.1 := by
        unfold dataBlockBytes
        exact take8_append _ (encodeNumber_length 8 r.1)
      have hdrop : (dataBlockBytes s.blockSize r.1 (q.take (s.blockSize - 8))).drop 8 =
          padTo (s.blockSize - 8) (q.take (s.blockSize - 8)) := by
        unfold dataBlockBytes
        exact drop8_append _ (encodeNumber_length 8 r.1)
      rw [htake, decode_encodeNumber64 hr1lt,
        show q.length - (s.blockSize - 8) = (q.drop (s.blockSize - 8)).length by
          simp only [List.length_drop],
        hm]
      dsimp only
      rw [hdrop, padTo_of_le (by simp only [List.length_take]; omega)]
      rw [← List.append_assoc, List.take_append_drop]

end BPlusTree

namespace BPlusTree

theorem buildDataChain_fst (s : Storage) (p : Bytes) (t : Nat) :
    (buildDataChain s p t).1 = s.counter := rfl

theorem buildDataChain_snd (s : Storage) (p : Bytes) (t : Nat) :
    (buildDataChain s p t).2 =
      (writeRest s.bump t (chunks (s.blockSize - 8) (p.drop (s.blockSize - 16)))).2.set s.counter
        (headBlockBytes s.blockSize
          (writeRest s.bump t (chunks (s.blockSize - 8) (p.drop (s.blockSize - 16)))).1
          p.length (p.take (s.blockSize - 16))) := rfl

theorem buildDataChain_counter (s : Storage) (p : Bytes) (t : Nat) :
    (buildDataChain s p t).2.counter =
      s.counter + 1 + (chunks (s.blockSize - 8) (p.drop (s.blockSize - 16))).length := by
  rw [buildDataChain_snd, set_counter, (writeRest_basic _ s.bump t).1, bump_counter]

theorem buildDataChain_blockSize (s : Storage) (p : Bytes) (t : Nat) :
    (buildDataChain s p t).2.blockSize = s.blockSize := by
  rw [buildDataChain_snd, set_blockSize, (writeRest_basic _ s.bump t).2.1, bump_blockSize]

theorem buildDataChain_get_below (s : Storage) (p : Bytes) (t : Nat) (a : Nat)
    (ha : a < s.counter) : (buildDataChain s p t).2.get a = s.get a := by
  rw [buildDataChain_snd, get_set_ne _ _ (by omega),
    (writeRest_basic _ s.bump t).2.2.1 a (by simp; omega), get_bump]

theorem buildDataChain_wf (s : Storage) (p : Bytes) (t : Nat) (hW : s.WF) :
    (buildDataChain s p t).2.WF := by
  rw [buildDataChain_snd]
  apply wf_set _ ((writeRest_basic _ s.bump t).2.2.2 (wf_bump hW))
  rw [(writeRest_basic _ s.bump t).1, bump_counter]
  omega

theorem buildDataChain_extends (s : Storage) (p : Bytes) (t : Nat) (hW : s.WF) :
    (buildDataChain s p t).2.Extends s := by
  apply extends_of_below (buildDataChain_blockSize s p t) ?_ hW
    (buildDataChain_get_below s p t)
  rw [buildDataChain_counter]
  omega

theorem buildDataChain_head (s : Storage) (p : Bytes) (t : Nat) :
    (buildDataChain s p t).2.get s.counter =
      some (headBlockBytes s.blockSize
        (writeRest s.bump t (chunks (s.blockSize - 8) (p.drop (s.blockSize - 16)))).1
        p.length (p.take (s.blockSize - 16))) := by
  rw [buildDataChain_snd]
  exact get_set_self _ _ _

theorem buildDataChain_content (s : Storage) (p : Bytes) (t : Nat) (hW : s.WF) (a : Nat)
    (ha1 : s.counter < a) (ha2 : a < (buildDataChain s p t).2.counter) :
    ∃ nx f, f ∈ chunks (s.blockSize - 8) (p.drop (s.blockSize - 16)) ∧
      (buildDataChain s p t).2.get a = some (dataBlockBytes s.blockSize nx f) := by
  rw [buildDataChain_snd] at ha2 ⊢
  simp only [set_counter] at ha2
  rw [get_set_ne _ _ (by omega)]
  obtain ⟨nx, f, hmem, hget⟩ :=
    writeRest_content _ s.bump t (wf_bump hW) a (by simp; omega) ha2
  rw [bump_blockSize] at hget
  exact ⟨nx, f, hmem, hget⟩

theorem buildDataChain_last (s : Storage) (p : Bytes) (t : Nat) (hB : 40 ≤ s.blockSize)
    (ht : t < 2 ^ 64) :
    ∃ b, (buildDataChain s p t).2.get ((buildDataChain s p t).2.counter - 1) = some b ∧
      decodeNumber (b.take 8) = t := by
  by_cases hpd : p.drop (s.blockSize - 16) = []
  · refine ⟨headBlockBytes s.blockSize t p.length (p.take (s.blockSize - 16)), ?_, ?_⟩
    · rw [buildDataChain_counter, buildDataChain_snd, hpd, chunks_nil,
        writeRest_nil_snd, writeRest_nil_fst]
      simp only [List.length_nil]
      rw [show s.counter + 1 + 0 - 1 = s.counter by omega]
      exact get_set_self _ _ _
    · unfold headBlockBytes
      rw [take8_append _ (encodeNumber_length 8 t), decode_encodeNumber64 ht]
  · have hn8 : (1 : Nat) ≤ s.blockSize - 8 := by omega
    have hne : chunks (s.blockSize - 8) (p.drop (s.blockSize - 16)) ≠ [] :=
      fun h => hpd ((chunks_eq_nil_iff hn8 _).mp h)
    obtain ⟨f, hmem, hget⟩ := writeRest_last _ s.bump t hne
    rw [bump_blockSize] at hget
    refine ⟨dataBlockBytes s.blockSize t f, ?_, ?_⟩
    · rw [buildDataChain_counter, buildDataChain_snd]
      have hrc := (writeRest_basic (chunks (s.blockSize - 8) (p.drop (s.blockSize - 16)))
        s.bump t).1
      have hlen1 : 1 ≤ (chunks (s.blockSize - 8) (p.drop (s.blockSize - 16))).length := by
        cases hc : chunks (s.blockSize - 8) (p.drop (s.blockSize - 16)) with
        | nil => exact absurd hc hne
        | cons a b => simp
      simp only [bump_counter] at hrc
      rw [get_set_ne _ _ (by omega)]
      rw [show s.counter + 1 + (chunks (s.blockSize - 8) (p.drop (s.blockSize - 16))).length - 1
        = (writeRest s.bump t (chunks (s.blockSize - 8) (p.drop (s.blockSize - 16)))).2.counter - 1
        by omega]
      exact hget
    · unfold dataBlockBytes
      rw [take8_append _ (encodeNumber_length 8 t), decode_encodeNumber64 ht]

theorem buildDataChain_read (s : Storage) (p : Bytes) (t : Nat) (hB : 40 ≤ s.blockSize)
    (hW : s.WF) (ht : t < 2 ^ 64) (hp : p.length < 2 ^ 64)
    (hcnt : (buildDataChain s p t).2.counter ≤ 2 ^ 64)
    (s2 : Storage) (hext : s2.Extends (buildDataChain s p t).2) :
    readDataBlock s2 (buildDataChain s p t).1 = .ok (p, t) := by
  rw [buildDataChain_fst]
  rw [buildDataChain_snd] at hext
  rw [buildDataChain_counter] at hcnt
  set r := writeRest s.bump t (chunks (s.blockSize - 8) (p.drop (s.blockSize - 16))) with hrdef
  have hrbasic := writeRest_basic (chunks (s.blockSize - 8) (p.drop (s.blockSize - 16))) s.bump t
  rw [← hrdef] at hrbasic
  obtain ⟨hrc, hrb, hrg, hrw⟩ := hrbasic
  have hget2 : s2.get s.counter =
      some (headBlockBytes s.blockSize r.1 p.length (p.take (s.blockSize - 16))) :=
    hext.2.2 _ _ (get_set_self _ _ _)
  have hbs2 : s2.blockSize = s.blockSize := by
    rw [hext.1, set_blockSize, hrb, bump_blockSize]
  have htake : (headBlockBytes s.blockSize r.1 p.length (p.take (s.blockSize - 16))).take 8 =
      encodeNumber 8 r.1 := by
    unfold headBlockBytes
    exact take8_append _ (encodeNumber_length 8 _)
  have hdrop8 : (headBlockBytes s.blockSize r.1 p.length (p.take (s.blockSize - 16))).drop 8 =
      encodeNumber 8 p.length ++ padTo (s.blockSize - 16) (p.take (s.blockSize - 16)) := by
    unfold headBlockBytes
    exact drop8_append _ (encodeNumber_length 8 _)
  have htlen : ((headBlockBytes s.blockSize r.1 p.length (p.take (s.blockSize - 16))).drop 8).take 8 =
      encodeNumber 8 p.length := by
    rw [hdrop8]
    exact take8_append _ (encodeNumber_length 8 _)
  have hfrag : ((headBlockBytes s.blockSize r.1 p.length (p.take (s.blockSize - 16))).drop 8).drop 8 =
      padTo (s.blockSize - 16) (p.take (s.blockSize - 16)) := by
    rw [hdrop8]
    exact drop8_append _ (encodeNumber_length 8 _)
  unfold readDataBlock
  rw [hget2]
  dsimp only
  rw [htlen, decode_encodeNumber64 hp, hbs2]
  by_cases hpl : p.length ≤ s.blockSize - 16
  · have hpd : p.drop (s.blockSize - 16) = [] := List.drop_eq_nil_iff.mpr hpl
    have hr1 : r.1 = t := by rw [hrdef, hpd, chunks_nil, writeRest_nil_fst]
    rw [if_pos hpl, hfrag, htake, hr1, decode_encodeNumber64 ht]
    rw [List.take_of_length_le hpl]
    unfold padTo
    rw [take_len_append]
  · rw [if_neg hpl]
    have hpd : p.drop (s.blockSize - 16) ≠ [] := by
      intro h
      exact hpl (List.drop_eq_nil_iff.mp h)
    have hn8 : (1 : Nat) ≤ s.blockSize - 8 := by omega
    have hcne : chunks (s.blockSize - 8) (p.drop (s.blockSize - 16)) ≠ [] :=
      fun h => hpd ((chunks_eq_nil_iff hn8 _).mp h)
    obtain ⟨c0, cs0, hc0⟩ := List.exists_cons_of_ne_nil hcne
    have hr1 : r.1 = s.counter + 1 := by
      rw [hrdef, hc0, writeRest_cons_fst]
      rfl
    have hlenrest : 1 ≤ (chunks (s.blockSize - 8) (p.drop (s.blockSize - 16))).length := by
      rw [hc0]
      simp
    have hr1lt : r.1 < 2 ^ 64 := by
      rw [hr1]
      omega
    have hfresh : r.2.get s.counter = none := by
      rw [hrg s.counter (by simp)]
      exact hW s.counter (Nat.le_refl _)
    have hextr : s2.Extends r.2 :=
      extends_trans hext (extends_set_fresh _ hfresh)
    have hrcnt : r.2.counter ≤ 2 ^ 64 := by
      simp only [bump_counter] at hrc
      omega
    have hwr := writeRest_read (p.drop (s.blockSize - 16)).length (p.drop (s.blockSize - 16))
      s.bump t (Nat.le_refl _) hpd (by simpa using hB) (wf_bump hW) ht
      (by simpa using hrcnt) s2 (by simpa using hextr)
    simp only [bump_blockSize] at hwr
    rw [← hrdef] at hwr
    obtain ⟨m, hm⟩ := hwr
    rw [htake, decode_encodeNumber64 hr1lt,
      show p.length - (s.blockSize - 16) = (p.drop (s.blockSize - 16)).length by
        simp only [List.length_drop],
      hm]
    dsimp only
    rw [hfrag, padTo_of_le (by simp only [List.length_take]; omega),
      ← List.append_assoc, List.take_append_drop, take_len_append]

end BPlusTree

namespace BPlusTree

/-- Claim C5: every data chain's head block stores `next` in bytes 0 to 7, the
payload's total length in bytes 8 to 15 and a fragment of at most `B - 16`
bytes after that; every non-head block stores `next` followed by a `B - 8`
byte fragment; and the reader recovers the payload by trimming the
concatenated fragments to the stored total length. -/
theorem dataChain_layout (s : Storage) (p : Bytes) (t : Nat)
    (hB : 40 ≤ s.blockSize) (hW : s.WF) (ht : t < 2 ^ 64) (hp : p.length < 2 ^ 64)
    (hcnt : (buildDataChain s p t).2.counter ≤ 2 ^ 64) :
    (∃ nx, (buildDataChain s p t).2.get (buildDataChain s p t).1 =
      some (encodeNumber 8 nx ++
        (encodeNumber 8 p.length ++ padTo (s.blockSize - 16) (p.take (s.blockSize - 16))))) ∧
    (∀ a, (buildDataChain s p t).1 < a → a < (buildDataChain s p t).2.counter →
      ∃ nx f, f ∈ chunks (s.blockSize - 8) (p.drop (s.blockSize - 16)) ∧
        (buildDataChain s p t).2.get a =
          some (encodeNumber 8 nx ++ padTo (s.blockSize - 8) f)) ∧
    readDataBlock (buildDataChain s p t).2 (buildDataChain s p t).1 = .ok (p, t) := by
  refine ⟨?_, ?_, ?_⟩
  · rw [buildDataChain_fst]
    exact ⟨_, buildDataChain_head s p t⟩
  · intro a ha1 ha2
    rw [buildDataChain_fst] at ha1
    obtain ⟨nx, f, hmem, hget⟩ := buildDataChain_content s p t hW a ha1 ha2
    exact ⟨nx, f, hmem, hget⟩
  · exact buildDataChain_read s p t hB hW ht hp hcnt _ (extends_refl _)

/-- Witness for C5 at block size 64 with a 100-byte payload (two blocks). -/
theorem dataChain_layout_witness :
    readDataBlock (buildDataChain (Storage.fresh 64) (List.range 100) 0).2
      (buildDataChain (Storage.fresh 64) (List.range 100) 0).1 = .ok (List.range 100, 0) :=
  (dataChain_layout (Storage.fresh 64) (List.range 100) 0 (by decide) (wf_fresh 64)
    (by decide) (by decide) (by decide)).2.2

/-- Counterexample to claim C7 as stated: at block size 64 a payload of 56
bytes occupies 2 data blocks, not the claimed ceiling of 56 / 56 = 1, because
the adopted head layout stores the total length and holds only `B - 16`
payload bytes. -/
theorem chain_blockCount_counterexample :
    ¬((buildDataChain (Storage.fresh 64) (List.replicate 56 7) 0).2.counter -
        (Storage.fresh 64).counter = (56 + (64 - 8) - 1) / (64 - 8)) := by
  decide

/-- Claim C7 as amended: `build_data_chain` writes exactly
`1 + ⌈(L - (B - 16)) / (B - 8)⌉` data blocks (a head holding up to `B - 16`
payload bytes plus continuation blocks of `B - 8` bytes each), the final block
of the chain stores `next = EMPTY`, and a zero-length payload occupies exactly
one block. -/
theorem chain_blockCount_amended (s : Storage) (p : Bytes)
    (hB : 40 ≤ s.blockSize) :
    (buildDataChain s p 0).2.counter - s.counter =
      1 + (p.length - (s.blockSize - 16) + (s.blockSize - 8) - 1) / (s.blockSize - 8) ∧
    (p.length = 0 → (buildDataChain s p 0).2.counter - s.counter = 1) ∧
    (∃ b, (buildDataChain s p 0).2.get ((buildDataChain s p 0).2.counter - 1) = some b ∧
      decodeNumber (b.take 8) = 0) := by
  have hn8 : (1 : Nat) ≤ s.blockSize - 8 := by omega
  have hclen : (chunks (s.blockSize - 8) (p.drop (s.blockSize - 16))).length =
      (p.length - (s.blockSize - 16) + (s.blockSize - 8) - 1) / (s.blockSize - 8) := by
    rw [chunks_length hn8 (p.drop (s.blockSize - 16)).length _ (Nat.le_refl _)]
    simp only [List.length_drop]
  have hcount : (buildDataChain s p 0).2.counter - s.counter =
      1 + (p.length - (s.blockSize - 16) + (s.blockSize - 8) - 1) / (s.blockSize - 8) := by
    rw [buildDataChain_counter, hclen]
    omega
  refine ⟨hcount, ?_, ?_⟩
  · intro hp0
    rw [hcount, hp0]
    rw [Nat.div_eq_of_lt (by omega)]
  · exact buildDataChain_last s p 0 hB (by norm_num)

/-- Witness for the amended C7 at block size 64: a 56-byte payload occupies
one head block plus one continuation block. -/
theorem chain_blockCount_amended_witness :
    (buildDataChain (Storage.fresh 64) (List.replicate 56 7) 0).2.counter -
        (Storage.fresh 64).counter =
      1 + (56 - (64 - 16) + (64 - 8) - 1) / (64 - 8) :=
  (chain_blockCount_amended (Storage.fresh 64) (List.replicate 56 7) (by decide)).1

end BPlusTree

namespace BPlusTree

theorem buildDataLayer_nil (s : Storage) : buildDataLayer s [] = ([], s) := rfl

theorem buildDataLayer_cons_fst (s : Storage) (e : Nat × Bytes) (rest : List (Nat × Bytes)) :
    (buildDataLayer s (e :: rest)).1 =
      (e.1, (buildDataChain (buildDataLayer s rest).2 e.2
        (headAddr (buildDataLayer s rest).1)).1) :: (buildDataLayer s rest).1 := rfl

theorem buildDataLayer_cons_snd (s : Storage) (e : Nat × Bytes) (rest : List (Nat × Bytes)) :
    (buildDataLayer s (e :: rest)).2 =
      (buildDataChain (buildDataLayer s rest).2 e.2
        (headAddr (buildDataLayer s rest).1)).2 := rfl

theorem buildDataLayer_spec :
    ∀ (entries : List (Nat × Bytes)) (s : Storage),
      40 ≤ s.blockSize → s.WF → entriesOK entries →
      (buildDataLayer s entries).2.counter ≤ 2 ^ 64 →
      (buildDataLayer s entries).2.blockSize = s.blockSize ∧
      s.counter + entries.length ≤ (buildDataLayer s entries).2.counter ∧
      (∀ a, a < s.counter → (buildDataLayer s entries).2.get a = s.get a) ∧
      (buildDataLayer s entries).2.WF ∧
      (buildDataLayer s entries).1.map Prod.fst = entries.map Prod.fst ∧
      (∀ l ∈ (buildDataLayer s entries).1,
        s.counter ≤ l.2 ∧ l.2 < (buildDataLayer s entries).2.counter) ∧
      List.Forall₂ (fun lf (e : Nat × Bytes) => lf.1 = e.1 ∧
        ∀ s2, s2.Extends (buildDataLayer s entries).2 →
          ∃ nx, readDataBlock s2 lf.2 = .ok (e.2, nx))
        (buildDataLayer s entries).1 entries ∧
      (∀ s2, s2.Extends (buildDataLayer s entries).2 →
        walkData s2 (headAddr (buildDataLayer s entries).1) entries.length =
          .ok (entries.map Prod.snd)) := by
  intro entries
  induction entries with
  | nil =>
    intro s hB hW _ _
    refine ⟨rfl, by rw [buildDataLayer_nil]; simp, fun _ _ => rfl, hW, rfl,
      by rw [buildDataLayer_nil]; simp, List.Forall₂.nil, ?_⟩
    intro s2 _
    rfl
  | cons e rest ih =>
    intro s hB hW hOK hcnt
    rw [buildDataLayer_cons_snd] at hcnt
    rw [buildDataLayer_cons_fst, buildDataLayer_cons_snd]
    have hOKe := hOK e (by simp)
    have hOKrest : entriesOK rest := fun x hx => hOK x (by simp [hx])
    have hcntrest : (buildDataLayer s rest).2.counter ≤ 2 ^ 64 := by
      have hc := buildDataChain_counter (buildDataLayer s rest).2 e.2
        (headAddr (buildDataLayer s rest).1)
      omega
    obtain ⟨ihbs, ihcnt, ihget, ihwf, ihmap, ihaddr, ihfa, ihwalk⟩ :=
      ih s hB hW hOKrest hcntrest
    have hB2 : 40 ≤ (buildDataLayer s rest).2.blockSize := by rw [ihbs]; exact hB
    have htail : headAddr (buildDataLayer s rest).1 < 2 ^ 64 := by
      cases hr1 : (buildDataLayer s rest).1 with
      | nil => norm_num [headAddr]
      | cons l ls =>
        have hl := ihaddr l (by rw [hr1]; simp)
        show l.2 < 2 ^ 64
        omega
    have hchain := buildDataChain_counter (buildDataLayer s rest).2 e.2
      (headAddr (buildDataLayer s rest).1)
    have hchainbs := buildDataChain_blockSize (buildDataLayer s rest).2 e.2
      (headAddr (buildDataLayer s rest).1)
    have hchainwf := buildDataChain_wf (buildDataLayer s rest).2 e.2
      (headAddr (buildDataLayer s rest).1) ihwf
    have hchainext := buildDataChain_extends (buildDataLayer s rest).2 e.2
      (headAddr (buildDataLayer s rest).1) ihwf
    have hread := buildDataChain_read (buildDataLayer s rest).2 e.2
      (headAddr (buildDataLayer s rest).1) hB2 ihwf htail hOKe.2.1 hcnt
    refine ⟨?_, ?_, ?_, ?_, ?_, ?_, ?_, ?_⟩
    · rw [hchainbs, ihbs]
    · simp only [List.length_cons]
      omega
    · intro a ha
      rw [buildDataChain_get_below _ _ _ a (by omega), ihget a ha]
    · exact hchainwf
    · simp only [List.map_cons, ihmap]
    · intro l hl
      rcases List.mem_cons.mp hl with rfl | hl2
      · refine ⟨?_, ?_⟩
        · rw [buildDataChain_fst]
          omega
        · rw [buildDataChain_fst]
          omega
      · have := ihaddr l hl2
        omega
    · refine List.Forall₂.cons ⟨rfl, ?_⟩ ?_
      · intro s2 hext
        exact ⟨headAddr (buildDataLayer s rest).1, hread s2 hext⟩
      · refine List.Forall₂.imp ?_ ihfa
        intro lf x hx
        exact ⟨hx.1, fun s2 hext => hx.2 s2 (extends_trans hext hchainext)⟩
    · intro s2 hext
      show walkData s2 (buildDataChain (buildDataLayer s rest).2 e.2
        (headAddr (buildDataLayer s rest).1)).1 (rest.length + 1) = _
      simp only [walkData]
      rw [hread s2 hext]
      dsimp only
      rw [ihwalk s2 (extends_trans hext hchainext)]
      rfl

end BPlusTree

namespace BPlusTree

theorem fstSorted_cons {β : Type} {x : Nat × β} {rest : List (Nat × β)} :
    fstSorted (x :: rest) ↔ (∀ e ∈ rest, x.1 < e.1) ∧ fstSorted rest :=
  List.pairwise_cons

theorem fstSorted_append_iff {β : Type} {l1 l2 : List (Nat × β)} :
    fstSorted (l1 ++ l2) ↔ fstSorted l1 ∧ fstSorted l2 ∧ ∀ a ∈ l1, ∀ b ∈ l2, a.1 < b.1 :=
  List.pairwise_append

theorem findLE_nil (k : Nat) : findLE k [] = none := rfl

theorem findLE_cons (k : Nat) (e : Nat × Nat) (rest : List (Nat × Nat)) :
    findLE k (e :: rest) = if e.1 ≤ k then some ((findLE k rest).getD e) else none := rfl

theorem findLE_none {k : Nat} :
    ∀ {l : List (Nat × Nat)}, (∀ e ∈ l, k < e.1) → findLE k l = none := by
  intro l
  induction l with
  | nil => intro _; rfl
  | cons e rest ih =>
    intro h
    rw [findLE_cons, if_neg (by have := h e (by simp); omega)]

theorem findLE_append_some {k : Nat} {l2 : List (Nat × Nat)} {r : Nat × Nat}
    (h2 : findLE k l2 = some r) :
    ∀ (l1 : List (Nat × Nat)), (∀ e ∈ l1, e.1 ≤ k) → findLE k (l1 ++ l2) = some r := by
  intro l1
  induction l1 with
  | nil => intro _; simpa using h2
  | cons e rest ih =>
    intro h
    rw [List.cons_append, findLE_cons, if_pos (h e (by simp)),
      ih (fun x hx => h x (by simp [hx]))]
    rfl

theorem findLE_append_none {k : Nat} {l2 : List (Nat × Nat)}
    (h2 : ∀ e ∈ l2, k < e.1) (l1 : List (Nat × Nat)) :
    findLE k (l1 ++ l2) = findLE k l1 := by
  induction l1 with
  | nil =>
    show findLE k l2 = findLE k []
    rw [findLE_none h2, findLE_nil]
  | cons e rest ih =>
    rw [List.cons_append, findLE_cons, findLE_cons, ih]

theorem findLE_mem {k : Nat} :
    ∀ {l : List (Nat × Nat)} {e : Nat × Nat}, findLE k l = some e → e ∈ l := by
  intro l
  induction l with
  | nil => intro e h; exact absurd h (by simp [findLE_nil])
  | cons x rest ih =>
    intro e h
    rw [findLE_cons] at h
    by_cases hx : x.1 ≤ k
    · rw [if_pos hx] at h
      cases hfr : findLE k rest with
      | none =>
        rw [hfr] at h
        simp only [Option.getD_none, Option.some.injEq] at h
        simp [← h]
      | some r =>
        rw [hfr] at h
        simp only [Option.getD_some, Option.some.injEq] at h
        subst h
        exact List.mem_cons_of_mem x (ih hfr)
    · rw [if_neg hx] at h
      exact absurd h (by simp)

theorem findLE_le {k : Nat} :
    ∀ {l : List (Nat × Nat)} {e : Nat × Nat}, findLE k l = some e → e.1 ≤ k := by
  intro l
  induction l with
  | nil => intro e h; exact absurd h (by simp [findLE_nil])
  | cons x rest ih =>
    intro e h
    rw [findLE_cons] at h
    by_cases hx : x.1 ≤ k
    · rw [if_pos hx] at h
      cases hfr : findLE k rest with
      | none =>
        rw [hfr] at h
        simp only [Option.getD_none, Option.some.injEq] at h
        rw [← h]
        exact hx
      | some r =>
        rw [hfr] at h
        simp only [Option.getD_some, Option.some.injEq] at h
        rw [← h]
        exact ih hfr
    · rw [if_neg hx] at h
      exact absurd h (by simp)

theorem findLE_self {k v : Nat} :
    ∀ {l : List (Nat × Nat)}, fstSorted l → (k, v) ∈ l → findLE k l = some (k, v) := by
  intro l
  induction l with
  | nil => intro _ h; exact absurd h (by simp)
  | cons x rest ih =>
    intro hs hm
    obtain ⟨hhead, htail⟩ := fstSorted_cons.mp hs
    rcases List.mem_cons.mp hm with heq | hm2
    · rw [← heq] at hhead ⊢
      rw [findLE_cons, if_pos (Nat.le_refl k),
        findLE_none (fun e he => hhead e he)]
      rfl
    · have hx : x.1 ≤ k := by
        have := hhead (k, v) hm2
        omega
      rw [findLE_cons, if_pos hx, ih htail hm2]
      rfl

theorem fstSorted_unique {β : Type} :
    ∀ {l : List (Nat × β)}, fstSorted l →
      ∀ {k : Nat} {a b : β}, (k, a) ∈ l → (k, b) ∈ l → a = b := by
  intro l
  induction l with
  | nil => intro _ k a b h; exact absurd h (by simp)
  | cons x rest ih =>
    intro hs k a b ha hb
    obtain ⟨hhead, htail⟩ := fstSorted_cons.mp hs
    rcases List.mem_cons.mp ha with hea | ha2
    · rcases List.mem_cons.mp hb with heb | hb2
      · rw [← hea] at heb
        exact (Prod.mk.injEq _ _ _ _ ▸ heb.symm).2
      · have := hhead (k, b) hb2
        rw [← hea] at this
        omega
    · rcases List.mem_cons.mp hb with heb | hb2
      · have := hhead (k, a) ha2
        rw [← heb] at this
        omega
      · exact ih htail ha2 hb2

theorem partitionGo_single {α : Type} (F : Nat) :
    ∀ (fuel : Nat) (l : List α), l.length ≤ F → partitionGo F fuel l = [l] := by
  intro fuel l h
  cases fuel with
  | zero => rfl
  | succ fuel => simp [partitionGo, h]

theorem partitionGo_flatten {α : Type} {F : Nat} (hF : 1 ≤ F) :
    ∀ (fuel : Nat) (l : List α), l.length ≤ fuel → (partitionGo F fuel l).flatten = l := by
  intro fuel
  induction fuel with
  | zero =>
    intro l h
    have hl : l = [] := List.eq_nil_of_length_eq_zero (by omega)
    subst hl
    rfl
  | succ fuel ih =>
    intro l h
    simp only [partitionGo]
    by_cases h1 : l.length ≤ F
    · rw [if_pos h1]
      simp
    · rw [if_neg h1]
      by_cases h2 : l.length < F + (F + 1) / 2
      · rw [if_pos h2]
        simp [List.take_append_drop]
      · rw [if_neg h2]
        rw [List.flatten_cons, ih (l.drop F) (by simp only [List.length_drop]; omega)]
        exact List.take_append_drop F l

theorem partitionGroups_flatten {α : Type} {F : Nat} (hF : 1 ≤ F) (l : List α) :
    (partitionGroups F l).flatten = l :=
  partitionGo_flatten hF l.length l (Nat.le_refl _)

theorem partitionGo_ne_nil {α : Type} {F : Nat} (hF : 1 ≤ F) :
    ∀ (fuel : Nat) (l : List α), l.length ≤ fuel → l ≠ [] →
      ∀ g ∈ partitionGo F fuel l, g ≠ [] := by
  intro fuel
  induction fuel with
  | zero =>
    intro l h hne
    exact absurd (List.eq_nil_of_length_eq_zero (by omega)) hne
  | succ fuel ih =>
    intro l h hne g hg
    have hlp : 0 < l.length := List.length_pos.mpr hne
    simp only [partitionGo] at hg
    by_cases h1 : l.length ≤ F
    · rw [if_pos h1] at hg
      simp only [List.mem_singleton] at hg
      rw [hg]
      exact hne
    · rw [if_neg h1] at hg
      by_cases h2 : l.length < F + (F + 1) / 2
      · rw [if_pos h2] at hg
        simp only [List.mem_cons, List.mem_singleton, List.not_mem_nil, or_false] at hg
        rcases hg with rfl | rfl
        · apply List.length_pos.mp
          simp only [List.length_take]
          omega
        · apply List.length_pos.mp
          simp only [List.length_drop]
          omega
      · rw [if_neg h2] at hg
        rcases List.mem_cons.mp hg with rfl | hg2
        · apply List.length_pos.mp
          simp only [List.length_take]
          omega
        · exact ih (l.drop F) (by simp only [List.length_drop]; omega)
            (by apply List.length_pos.mp; simp only [List.length_drop]; omega) g hg2

theorem partitionGo_le_F {α : Type} {F : Nat} (hF : 1 ≤ F) :
    ∀ (fuel : Nat) (l : List α), l.length ≤ fuel →
      ∀ g ∈ partitionGo F fuel l, g.length ≤ F := by
  intro fuel
  induction fuel with
  | zero =>
    intro l h g hg
    have hl : l = [] := List.eq_nil_of_length_eq_zero (by omega)
    subst hl
    simp only [partitionGo, List.mem_singleton] at hg
    rw [hg]
    simp
  | succ fuel ih =>
    intro l h g hg
    simp only [partitionGo] at hg
    by_cases h1 : l.length ≤ F
    · rw [if_pos h1] at hg
      simp only [List.mem_singleton] at hg
      rw [hg]
      exact h1
    · rw [if_neg h1] at hg
      by_cases h2 : l.length < F + (F + 1) / 2
      · rw [if_pos h2] at hg
        simp only [List.mem_cons, List.mem_singleton, List.not_mem_nil, or_false] at hg
        rcases hg with rfl | rfl
        · simp only [List.length_take]
          omega
        · simp only [List.length_drop]
          omega
      · rw [if_neg h2] at hg
        rcases List.mem_cons.mp hg with rfl | hg2
        · simp only [List.length_take]
          omega
        · exact ih (l.drop F) (by simp only [List.length_drop]; omega) g hg2

theorem partitionGo_length_lt {α : Type} {F : Nat} (hF : 2 ≤ F) :
    ∀ (fuel : Nat) (l : List α), l.length ≤ fuel → F < l.length →
      (partitionGo F fuel l).length < l.length := by
  intro fuel
  induction fuel with
  | zero =>
    intro l h hlen
    omega
  | succ fuel ih =>
    intro l h hlen
    simp only [partitionGo]
    rw [if_neg (by omega)]
    by_cases h2 : l.length < F + (F + 1) / 2
    · rw [if_pos h2]
      simp only [List.length_cons, List.length_nil]
      omega
    · rw [if_neg h2]
      simp only [List.length_cons]
      by_cases h3 : (l.drop F).length ≤ F
      · rw [partitionGo_single F fuel (l.drop F) h3]
        simp only [List.length_cons, List.length_nil]
        omega
      · have := ih (l.drop F) (by simp only [List.length_drop]; omega)
          (by simp only [List.length_drop] at h3 ⊢; omega)
        simp only [List.length_drop] at this
        omega

theorem partitionGroups_ne_nil {α : Type} {F : Nat} (hF : 1 ≤ F) (l : List α) (hne : l ≠ []) :
    ∀ g ∈ partitionGroups F l, g ≠ [] :=
  partitionGo_ne_nil hF l.length l (Nat.le_refl _) hne

theorem partitionGroups_le_F {α : Type} {F : Nat} (hF : 1 ≤ F) (l : List α) :
    ∀ g ∈ partitionGroups F l, g.length ≤ F :=
  partitionGo_le_F hF l.length l (Nat.le_refl _)

theorem partitionGroups_length_lt {α : Type} {F : Nat} (hF : 2 ≤ F) (l : List α)
    (hlen : F < l.length) : (partitionGroups F l).length < l.length :=
  partitionGo_length_lt hF l.length l (Nat.le_refl _) hlen

theorem partitionGroups_not_nil {α : Type} {F : Nat} (l : List α) (hne : l ≠ []) :
    partitionGroups F l ≠ [] := by
  intro hcon
  have := congrArg List.length hcon
  unfold partitionGroups at this
  cases hf : l.length with
  | zero => exact hne (List.eq_nil_of_length_eq_zero hf)
  | succ m =>
    rw [hf] at this
    simp only [partitionGo, List.length_nil] at this
    by_cases h1 : l.length ≤ F
    · rw [if_pos h1] at this
      simp at this
    · rw [if_neg h1] at this
      by_cases h2 : l.length < F + (F + 1) / 2
      · rw [if_pos h2] at this
        simp at this
      · rw [if_neg h2] at this
        simp at this

theorem groupKey_heads_sorted :
    ∀ (gs : List (List (Nat × Nat))), (∀ g ∈ gs, g ≠ []) → fstSorted gs.flatten →
      List.Pairwise (fun a b => a < b) (gs.map groupKey) := by
  intro gs
  induction gs with
  | nil => intro _ _; simp
  | cons g gs ih =>
    intro hne hs
    rw [List.flatten_cons] at hs
    obtain ⟨hg, hgs, hcross⟩ := fstSorted_append_iff.mp hs
    rw [List.map_cons]
    refine List.pairwise_cons.mpr ⟨?_, ih (fun x hx => hne x (by simp [hx])) hgs⟩
    intro k2 hk2
    obtain ⟨g2, hg2, rfl⟩ := List.mem_map.mp hk2
    obtain ⟨e0, g1, rfl⟩ := List.exists_cons_of_ne_nil (hne g (by simp))
    obtain ⟨e2, g3, rfl⟩ := List.exists_cons_of_ne_nil (hne g2 (by simp [hg2]))
    show e0.1 < e2.1
    exact hcross e0 (by simp) e2 (List.mem_flatten.mpr ⟨e2 :: g3, hg2, by simp⟩)

theorem fstSorted_of_flatten :
    ∀ (gs : List (List (Nat × Nat))), fstSorted gs.flatten → ∀ g ∈ gs, fstSorted g := by
  intro gs
  induction gs with
  | nil => intro _ g hg; exact absurd hg (by simp)
  | cons g0 gs ih =>
    intro hs g hg
    rw [List.flatten_cons] at hs
    obtain ⟨hg0, hgs, _⟩ := fstSorted_append_iff.mp hs
    rcases List.mem_cons.mp hg with rfl | hg2
    · exact hg0
    · exact ih hgs g hg2

end BPlusTree

namespace BPlusTree

theorem findLE_parent (P : Nat → List (Nat × Nat) → Prop) (k : Nat) :
    ∀ (next : List (Nat × Nat)) (gs : List (List (Nat × Nat))),
      List.Forall₂ (fun nd g => nd.1 = groupKey g ∧ P nd.2 g) next gs →
      (∀ g ∈ gs, g ≠ []) → fstSorted gs.flatten → fstSorted next →
      (findLE k next = none → findLE k gs.flatten = none) ∧
      (∀ e, findLE k next = some e →
        ∃ g, P e.2 g ∧ findLE k g = findLE k gs.flatten) := by
  intro next
  induction next with
  | nil =>
    intro gs hrel _ _ _
    cases hrel
    exact ⟨fun _ => rfl, fun e h => absurd h (by simp [findLE_nil])⟩
  | cons nd next ih =>
    intro gs hrel hne hs hsn
    cases hrel with
    | cons h1 h2 =>
      rename_i g gs2
      obtain ⟨e0, g1, rfl⟩ := List.exists_cons_of_ne_nil (hne g (by simp))
      have hkey : nd.1 = e0.1 := h1.1
      have hsfull := hs
      rw [List.flatten_cons] at hsfull ⊢
      obtain ⟨hg0, hgs2, hcross⟩ := fstSorted_append_iff.mp hsfull
      have hsn2 : fstSorted next := (fstSorted_cons.mp hsn).2
      by_cases hk0 : e0.1 ≤ k
      · cases next with
        | nil =>
          cases h2
          constructor
          · intro hnone
            rw [findLE_cons, if_pos (by rw [hkey]; exact hk0)] at hnone
            exact absurd hnone (by simp)
          · intro e he
            rw [findLE_cons, if_pos (by rw [hkey]; exact hk0), findLE_nil] at he
            simp only [Option.getD_none, Option.some.injEq] at he
            refine ⟨e0 :: g1, ?_, ?_⟩
            · rw [← he]
              exact h1.2
            · rw [List.flatten_nil, List.append_nil]
        | cons nd1 next2 =>
          cases h2 with
          | cons h21 h22 =>
            rename_i g2 gs3
            obtain ⟨e1, g3, rfl⟩ := List.exists_cons_of_ne_nil (hne g2 (by simp))
            have hkey1 : nd1.1 = e1.1 := h21.1
            rw [List.flatten_cons] at hgs2 ⊢
            by_cases hk1 : e1.1 ≤ k
            · have hfind_inner : findLE k (nd1 :: next2) =
                  some ((findLE k next2).getD nd1) := by
                rw [findLE_cons, if_pos (by rw [hkey1]; exact hk1)]
              have hfind_skip : findLE k (nd :: nd1 :: next2) = findLE k (nd1 :: next2) := by
                rw [findLE_cons, if_pos (by rw [hkey]; exact hk0), hfind_inner]
                rfl
              have hflat_hit : ∃ r, findLE k ((e1 :: g3) ++ gs3.flatten) = some r := by
                rw [show (e1 :: g3) ++ gs3.flatten = e1 :: (g3 ++ gs3.flatten) from rfl,
                  findLE_cons, if_pos hk1]
                exact ⟨_, rfl⟩
              obtain ⟨r0, hr0⟩ := hflat_hit
              have hcross1 : ∀ a ∈ e0 :: g1, a.1 ≤ k := by
                intro a ha
                have := hcross a ha e1
                  (List.mem_flatten.mpr ⟨e1 :: g3, by simp, by simp⟩)
                omega
              have hskip_flat : findLE k ((e0 :: g1) ++ ((e1 :: g3) ++ gs3.flatten)) =
                  findLE k ((e1 :: g3) ++ gs3.flatten) := by
                rw [findLE_append_some hr0 _ hcross1, hr0]
              have hih := ih ((e1 :: g3) :: gs3) (List.Forall₂.cons h21 h22)
                (fun x hx => hne x (List.mem_cons_of_mem _ hx))
                (by rw [List.flatten_cons]; exact hgs2) hsn2
              constructor
              · intro hnone
                rw [hfind_skip, hfind_inner] at hnone
                exact absurd hnone (by simp)
              · intro e he
                rw [hfind_skip] at he
                obtain ⟨g, hP, hfg⟩ := hih.2 e he
                rw [List.flatten_cons] at hfg
                refine ⟨g, hP, ?_⟩
                rw [hskip_flat]
                exact hfg
            · have hnext_none : findLE k (nd1 :: next2) = none := by
                apply findLE_none
                intro x hx
                rcases List.mem_cons.mp hx with rfl | hx2
                · omega
                · have := (fstSorted_cons.mp hsn2).1 x hx2
                  omega
              have hfind : findLE k (nd :: nd1 :: next2) = some nd := by
                rw [findLE_cons, if_pos (by rw [hkey]; exact hk0), hnext_none]
                rfl
              have hgs2c : fstSorted (e1 :: (g3 ++ gs3.flatten)) := hgs2
              have hflat_none : ∀ b ∈ (e1 :: g3) ++ gs3.flatten, k < b.1 := by
                intro b hb
                rcases List.mem_cons.mp hb with rfl | hb2
                · omega
                · have := (fstSorted_cons.mp hgs2c).1 b hb2
                  omega
              have hfind_flat : findLE k ((e0 :: g1) ++ ((e1 :: g3) ++ gs3.flatten)) =
                  findLE k (e0 :: g1) := findLE_append_none hflat_none _
              constructor
              · intro hnone
                rw [hfind] at hnone
                exact absurd hnone (by simp)
              · intro e he
                rw [hfind] at he
                simp only [Option.some.injEq] at he
                refine ⟨e0 :: g1, ?_, ?_⟩
                · rw [← he]
                  exact h1.2
                · rw [hfind_flat]
      · have hfind : findLE k (nd :: next) = none := by
          rw [findLE_cons, if_neg (by rw [hkey]; omega)]
        have hsfull2 : fstSorted (e0 :: (g1 ++ gs2.flatten)) := hsfull
        constructor
        · intro _
          apply findLE_none
          intro b hb
          rcases List.mem_cons.mp hb with rfl | hb2
          · omega
          · have := (fstSorted_cons.mp hsfull2).1 b hb2
            omega
        · intro e he
          rw [hfind] at he
          exact absurd he (by simp)

end BPlusTree

namespace BPlusTree

theorem emitGroups_nil (s : Storage) : emitGroups s [] = ([], s) := rfl

theorem emitGroups_cons_fst (s : Storage) (g : List (Nat × Nat))
    (gs : List (List (Nat × Nat))) :
    (emitGroups s (g :: gs)).1 =
      (groupKey g, s.counter) ::
        (emitGroups ((s.bump).set s.counter (nodeBlockBytes s.blockSize g)) gs).1 := rfl

theorem emitGroups_cons_snd (s : Storage) (g : List (Nat × Nat))
    (gs : List (List (Nat × Nat))) :
    (emitGroups s (g :: gs)).2 =
      (emitGroups ((s.bump).set s.counter (nodeBlockBytes s.blockSize g)) gs).2 := rfl

theorem emitGroups_spec :
    ∀ (gs : List (List (Nat × Nat))) (s : Storage), s.WF →
      (emitGroups s gs).2.counter = s.counter + gs.length ∧
      (emitGroups s gs).2.blockSize = s.blockSize ∧
      (∀ a, a < s.counter → (emitGroups s gs).2.get a = s.get a) ∧
      (emitGroups s gs).2.WF ∧
      (emitGroups s gs).1.length = gs.length ∧
      List.Forall₂ (fun nd g => nd.1 = groupKey g ∧ s.counter ≤ nd.2 ∧
        nd.2 < (emitGroups s gs).2.counter ∧
        (emitGroups s gs).2.get nd.2 = some (nodeBlockBytes s.blockSize g))
        (emitGroups s gs).1 gs ∧
      (∀ a, s.counter ≤ a → a < (emitGroups s gs).2.counter →
        ∃ g ∈ gs, (emitGroups s gs).2.get a = some (nodeBlockBytes s.blockSize g)) := by
  intro gs
  induction gs with
  | nil =>
    intro s hW
    refine ⟨by simp [emitGroups_nil], rfl, fun _ _ => rfl, hW, rfl, List.Forall₂.nil, ?_⟩
    intro a h1 h2
    rw [emitGroups_nil] at h2
    dsimp only at h2
    omega
  | cons g gs ih =>
    intro s hW
    have hW1 : ((s.bump).set s.counter (nodeBlockBytes s.blockSize g)).WF :=
      wf_set _ (wf_bump hW) (by simp)
    obtain ⟨ihc, ihb, ihg, ihw, ihlen, ihfa, ihcontent⟩ :=
      ih ((s.bump).set s.counter (nodeBlockBytes s.blockSize g)) hW1
    simp only [set_counter, bump_counter, set_blockSize, bump_blockSize] at ihc ihb ihg
    have hget_head : (emitGroups s (g :: gs)).2.get s.counter =
        some (nodeBlockBytes s.blockSize g) := by
      rw [emitGroups_cons_snd, ihg s.counter (by omega)]
      exact get_set_self _ _ _
    refine ⟨?_, ?_, ?_, ?_, ?_, ?_, ?_⟩
    · rw [emitGroups_cons_snd, ihc]
      simp only [List.length_cons]
      omega
    · rw [emitGroups_cons_snd, ihb]
    · intro a ha
      rw [emitGroups_cons_snd, ihg a (by omega), get_set_ne _ _ (by omega), get_bump]
    · rw [emitGroups_cons_snd]
      exact ihw
    · rw [emitGroups_cons_fst]
      simp only [List.length_cons, ihlen]
    · rw [emitGroups_cons_fst]
      refine List.Forall₂.cons ⟨rfl, Nat.le_refl _, ?_, hget_head⟩ ?_
      · rw [emitGroups_cons_snd, ihc]
        simp only [List.length_cons]
        omega
      · rw [emitGroups_cons_snd]
        refine List.Forall₂.imp ?_ ihfa
        intro nd g2 hx
        refine ⟨hx.1, ?_, hx.2.2.1, hx.2.2.2⟩
        have := hx.2.1
        simp only [set_counter, bump_counter] at this
        omega
    · intro a h1 h2
      rw [emitGroups_cons_snd] at h2 ⊢
      rcases Nat.eq_or_lt_of_le h1 with rfl | hlt
      · exact ⟨g, by simp, hget_head⟩
      · obtain ⟨g2, hg2, hget⟩ := ihcontent a
          (by simp only [set_counter, bump_counter]; omega) h2
        exact ⟨g2, by simp [hg2], hget⟩

theorem forall₂_mem_right {α β : Type} {R : α → β → Prop} :
    ∀ {l1 : List α} {l2 : List β}, List.Forall₂ R l1 l2 →
      List.Forall₂ (fun a b => R a b ∧ b ∈ l2) l1 l2 := by
  intro l1
  induction l1 with
  | nil => intro l2 h; cases h; exact List.Forall₂.nil
  | cons a l1 ih =>
    intro l2 h
    cases h with
    | cons h1 h2 =>
      refine List.Forall₂.cons ⟨h1, by simp⟩ ?_
      refine List.Forall₂.imp ?_ (ih h2)
      intro x y hy
      exact ⟨hy.1, List.mem_cons_of_mem _ hy.2⟩

theorem forall₂_fst_map {β : Type} {R : Nat × Nat → β → Prop} (f : β → Nat) :
    ∀ {l1 : List (Nat × Nat)} {l2 : List β}, List.Forall₂ R l1 l2 →
      (∀ a b, R a b → a.1 = f b) → l1.map Prod.fst = l2.map f := by
  intro l1
  induction l1 with
  | nil => intro l2 h _; cases h; rfl
  | cons a l1 ih =>
    intro l2 h hf
    cases h with
    | cons h1 h2 =>
      simp only [List.map_cons]
      rw [hf a _ h1, ih h2 hf]

theorem forall₂_mem_left {α β : Type} {R : α → β → Prop} :
    ∀ {l1 : List α} {l2 : List β}, List.Forall₂ R l1 l2 →
      ∀ a ∈ l1, ∃ b ∈ l2, R a b := by
  intro l1
  induction l1 with
  | nil => intro l2 _ a ha; exact absurd ha (by simp)
  | cons x l1 ih =>
    intro l2 h a ha
    cases h with
    | cons h1 h2 =>
      rcases List.mem_cons.mp ha with rfl | ha2
      · exact ⟨_, by simp, h1⟩
      · obtain ⟨b, hb, hr⟩ := ih h2 a ha2
        exact ⟨b, List.mem_cons_of_mem _ hb, hr⟩

theorem groupKey_mem {g : List (Nat × Nat)} (h : g ≠ []) :
    ∃ e ∈ g, e.1 = groupKey g := by
  obtain ⟨e0, g1, rfl⟩ := List.exists_cons_of_ne_nil h
  exact ⟨e0, by simp, rfl⟩

theorem fstSorted_of_map {β : Type} {l : List (Nat × β)}
    (h : List.Pairwise (fun a b => a < b) (l.map Prod.fst)) : fstSorted l :=
  List.pairwise_map.mp h

theorem descendRec_zero (s : Storage) (k addr : Nat) :
    descendRec s k addr 0 = .error .MalformedBlock := rfl

theorem descendRec_one (s : Storage) (k addr : Nat) :
    descendRec s k addr 1 = stepNode s k addr := by
  show (match stepNode s k addr with
    | Except.error e => Except.error e
    | Except.ok e =>
      if 0 = 0 then Except.ok e else descendRec s k e.2 0) = stepNode s k addr
  cases stepNode s k addr with
  | error e => rfl
  | ok e => simp

theorem descendRec_succ (s : Storage) (k : Nat) :
    ∀ (h addr : Nat), 1 ≤ h →
      descendRec s k addr (h + 1) =
        (descendRec s k addr h).bind (fun e => stepNode s k e.2) := by
  intro h
  induction h with
  | zero => intro addr h1; omega
  | succ h ih =>
    intro addr _
    show (match stepNode s k addr with
      | Except.error e => Except.error e
      | Except.ok e =>
        if h + 1 = 0 then Except.ok e else descendRec s k e.2 (h + 1)) =
      ((match stepNode s k addr with
        | Except.error e => Except.error e
        | Except.ok e =>
          if h = 0 then Except.ok e else descendRec s k e.2 h).bind
        (fun e => stepNode s k e.2))
    cases hstep : stepNode s k addr with
    | error e => rfl
    | ok e =>
      dsimp only
      rw [if_neg (by omega)]
      by_cases h0 : h = 0
      · subst h0
        rw [if_pos rfl, descendRec_one]
        rfl
      · rw [if_neg h0]
        exact ih e.2 (by omega)

end BPlusTree

namespace BPlusTree

theorem buildLayersGo_zero (s : Storage) (current : List (Nat × Nat)) :
    buildLayersGo s 0 current =
      (s.counter, 1, (s.bump).set s.counter (nodeBlockBytes s.blockSize current)) := rfl

theorem buildLayersGo_succ (s : Storage) (fuel : Nat) (current : List (Nat × Nat)) :
    buildLayersGo s (fuel + 1) current =
      if current.length ≤ fanout s.blockSize ∨ fanout s.blockSize < 2 then
        (s.counter, 1, (s.bump).set s.counter (nodeBlockBytes s.blockSize current))
      else
        ((buildLayersGo (emitGroups s (partitionGroups (fanout s.blockSize) current)).2 fuel
            (emitGroups s (partitionGroups (fanout s.blockSize) current)).1).1,
          (buildLayersGo (emitGroups s (partitionGroups (fanout s.blockSize) current)).2 fuel
            (emitGroups s (partitionGroups (fanout s.blockSize) current)).1).2.1 + 1,
          (buildLayersGo (emitGroups s (partitionGroups (fanout s.blockSize) current)).2 fuel
            (emitGroups s (partitionGroups (fanout s.blockSize) current)).1).2.2) := rfl

theorem emitGroups_counter :
    ∀ (gs : List (List (Nat × Nat))) (s : Storage),
      (emitGroups s gs).2.counter = s.counter + gs.length ∧
      (emitGroups s gs).2.blockSize = s.blockSize := by
  intro gs
  induction gs with
  | nil => intro s; exact ⟨rfl, rfl⟩
  | cons g gs ih =>
    intro s
    obtain ⟨ihc, ihb⟩ := ih ((s.bump).set s.counter (nodeBlockBytes s.blockSize g))
    rw [emitGroups_cons_snd]
    constructor
    · rw [ihc]
      simp only [set_counter, bump_counter, List.length_cons]
      omega
    · rw [ihb]
      simp only [set_blockSize, bump_blockSize]

theorem buildLayersGo_mono :
    ∀ (fuel : Nat) (current : List (Nat × Nat)) (s : Storage),
      s.counter ≤ (buildLayersGo s fuel current).2.2.counter ∧
      (buildLayersGo s fuel current).2.2.blockSize = s.blockSize := by
  intro fuel
  induction fuel with
  | zero =>
    intro current s
    rw [buildLayersGo_zero]
    exact ⟨by simp, by simp⟩
  | succ fuel ih =>
    intro current s
    rw [buildLayersGo_succ]
    by_cases hcond : current.length ≤ fanout s.blockSize ∨ fanout s.blockSize < 2
    · rw [if_pos hcond]
      exact ⟨by simp, by simp⟩
    · rw [if_neg hcond]
      dsimp only
      obtain ⟨ihc, ihb⟩ :=
        ih (emitGroups s (partitionGroups (fanout s.blockSize) current)).1
          (emitGroups s (partitionGroups (fanout s.blockSize) current)).2
      obtain ⟨ec, eb⟩ := emitGroups_counter (partitionGroups (fanout s.blockSize) current) s
      exact ⟨by omega, by rw [ihb, eb]⟩

theorem buildLayersGo_spec :
    ∀ (fuel : Nat) (current : List (Nat × Nat)) (s : Storage),
      current.length ≤ fuel → current ≠ [] → fstSorted current →
      2 ≤ fanout s.blockSize → s.blockSize < 2 ^ 64 → s.WF →
      (∀ e ∈ current, e.1 < 2 ^ 64 ∧ e.2 < 2 ^ 64) →
      (buildLayersGo s fuel current).2.2.counter ≤ 2 ^ 64 →
      (buildLayersGo s fuel current).2.2.blockSize = s.blockSize ∧
      s.counter ≤ (buildLayersGo s fuel current).2.2.counter ∧
      (∀ a, a < s.counter → (buildLayersGo s fuel current).2.2.get a = s.get a) ∧
      (buildLayersGo s fuel current).2.2.WF ∧
      s.counter ≤ (buildLayersGo s fuel current).1 ∧
      (buildLayersGo s fuel current).1 < (buildLayersGo s fuel current).2.2.counter ∧
      1 ≤ (buildLayersGo s fuel current).2.1 ∧
      (buildLayersGo s fuel current).2.1 ≤ current.length ∧
      (∀ a, s.counter ≤ a → a < (buildLayersGo s fuel current).2.2.counter →
        ∃ g, (buildLayersGo s fuel current).2.2.get a =
            some (nodeBlockBytes s.blockSize g) ∧
          fstSorted g ∧ g ≠ [] ∧ g.length ≤ fanout s.blockSize) ∧
      (∀ s2 k, s2.Extends (buildLayersGo s fuel current).2.2 →
        descendRec s2 k (buildLayersGo s fuel current).1
            (buildLayersGo s fuel current).2.1 =
          (match findLE k current with
           | none => .error .NotFound
           | some e => .ok e)) := by
  intro fuel
  induction fuel with
  | zero =>
    intro current s hlen hne
    exact absurd (List.eq_nil_of_length_eq_zero (by omega)) hne
  | succ fuel ih =>
    intro current s hlen hne hs hF2 hB64 hW hbounds hcnt
    have hcur1 : 1 ≤ current.length := List.length_pos.mpr hne
    have hcnt64 : current.length < 2 ^ 64 ∨ True := Or.inr trivial
    by_cases hcond : current.length ≤ fanout s.blockSize ∨ fanout s.blockSize < 2
    · have hc : current.length ≤ fanout s.blockSize := by
        rcases hcond with h | h
        · exact h
        · omega
      rw [buildLayersGo_succ, if_pos hcond] at hcnt ⊢
      dsimp only at hcnt ⊢
      have hfle : fanout s.blockSize ≤ s.blockSize := by
        unfold fanout
        have := Nat.div_le_self (s.blockSize - 8) 16
        omega
      have hclen : current.length < 2 ^ 64 := by omega
      refine ⟨by simp, by simp, ?_, wf_set _ (wf_bump hW) (by simp), Nat.le_refl _,
        by simp, Nat.le_refl _, hcur1, ?_, ?_⟩
      · intro a ha
        rw [get_set_ne _ _ (by omega), get_bump]
      · intro a ha1 ha2
        simp only [set_counter, bump_counter] at ha2
        have haeq : a = s.counter := by omega
        subst haeq
        exact ⟨current, get_set_self _ _ _, hs, hne, hc⟩
      · intro s2 k hext
        have hget : s2.get s.counter = some (nodeBlockBytes s.blockSize current) :=
          hext.2.2 _ _ (get_set_self _ _ _)
        rw [descendRec_one]
        unfold stepNode
        rw [hget]
        dsimp only
        rw [decodeNodeBlock_nodeBlockBytes _ _ hclen hbounds]
    · push_neg at hcond
      obtain ⟨hlenF, hF2b⟩ := hcond
      rw [buildLayersGo_succ,
        if_neg (by push_neg; exact ⟨hlenF, hF2b⟩)] at hcnt ⊢
      dsimp only at hcnt ⊢
      obtain ⟨ec, eb, eg, ew, elen, efa, econtent⟩ :=
        emitGroups_spec (partitionGroups (fanout s.blockSize) current) s hW
      have hF1 : (1 : Nat) ≤ fanout s.blockSize := by omega
      have hFlat : (partitionGroups (fanout s.blockSize) current).flatten = current :=
        partitionGroups_flatten hF1 current
      have hgne : ∀ g ∈ partitionGroups (fanout s.blockSize) current, g ≠ [] :=
        partitionGroups_ne_nil hF1 current hne
      have hgF : ∀ g ∈ partitionGroups (fanout s.blockSize) current,
          g.length ≤ fanout s.blockSize :=
        partitionGroups_le_F hF1 current
      have hgsorted : ∀ g ∈ partitionGroups (fanout s.blockSize) current, fstSorted g :=
        fstSorted_of_flatten _ (by rw [hFlat]; exact hs)
      have hflat_sorted : fstSorted (partitionGroups (fanout s.blockSize) current).flatten := by
        rw [hFlat]
        exact hs
      have hglen_lt : (partitionGroups (fanout s.blockSize) current).length <
          current.length := partitionGroups_length_lt hF2 current hlenF
      have hnext_ne : (emitGroups s (partitionGroups (fanout s.blockSize) current)).1 ≠ [] := by
        apply List.length_pos.mp
        rw [elen]
        exact List.length_pos.mpr (partitionGroups_not_nil current hne)
      have hnext_sorted :
          fstSorted (emitGroups s (partitionGroups (fanout s.blockSize) current)).1 := by
        apply fstSorted_of_map
        rw [forall₂_fst_map groupKey efa (fun a b h => h.1)]
        exact groupKey_heads_sorted _ hgne hflat_sorted
      obtain ⟨ihmono, ihmbs⟩ :=
        buildLayersGo_mono fuel (emitGroups s (partitionGroups (fanout s.blockSize) current)).1
          (emitGroups s (partitionGroups (fanout s.blockSize) current)).2
      have hr1cnt : (emitGroups s (partitionGroups (fanout s.blockSize) current)).2.counter ≤
          2 ^ 64 := by omega
      have hnext_bounds :
          ∀ e ∈ (emitGroups s (partitionGroups (fanout s.blockSize) current)).1,
            e.1 < 2 ^ 64 ∧ e.2 < 2 ^ 64 := by
        intro e he
        obtain ⟨g, hg, hrel⟩ := forall₂_mem_left efa e he
        constructor
        · obtain ⟨e0, he0, he0k⟩ := groupKey_mem (hgne g hg)
          have he0c : e0 ∈ current := by
            rw [← hFlat]
            exact List.mem_flatten.mpr ⟨g, hg, he0⟩
          rw [hrel.1, ← he0k]
          exact (hbounds e0 he0c).1
        · have h1 := hrel.2.2.1
          omega
      obtain ⟨ihbs, ihcm, ihget, ihwf, ihroot1, ihroot2, ihh1, ihhlen, ihcontent, ihdesc⟩ :=
        ih (emitGroups s (partitionGroups (fanout s.blockSize) current)).1
          (emitGroups s (partitionGroups (fanout s.blockSize) current)).2
          (by rw [elen]; omega) hnext_ne hnext_sorted (by rw [eb]; exact hF2)
          (by rw [eb]; exact hB64) ew hnext_bounds hcnt
      refine ⟨?_, ?_, ?_, ihwf, ?_, ihroot2, by omega, ?_, ?_, ?_⟩
      · rw [ihbs, eb]
      · omega
      · intro a ha
        rw [ihget a (by omega), eg a ha]
      · omega
      · rw [elen] at ihhlen
        omega
      · intro a ha1 ha2
        by_cases hsplit : a < (emitGroups s (partitionGroups (fanout s.blockSize) current)).2.counter
        · obtain ⟨g, hg, hget⟩ := econtent a ha1 hsplit
          refine ⟨g, ?_, hgsorted g hg, hgne g hg, hgF g hg⟩
          rw [ihget a hsplit]
          exact hget
        · obtain ⟨g, hget, hgs, hgn, hgl⟩ := ihcontent a (by omega) ha2
          rw [eb] at hget hgl
          exact ⟨g, hget, hgs, hgn, hgl⟩
      · intro s2 k hext
        rw [descendRec_succ s2 k _ _ ihh1, ihdesc s2 k hext]
        have hextr1 : (buildLayersGo
            (emitGroups s (partitionGroups (fanout s.blockSize) current)).2 fuel
            (emitGroups s (partitionGroups (fanout s.blockSize) current)).1).2.2.Extends
            (emitGroups s (partitionGroups (fanout s.blockSize) current)).2 :=
          extends_of_below ihbs ihcm ew ihget
        have hexts2 : s2.Extends
            (emitGroups s (partitionGroups (fanout s.blockSize) current)).2 :=
          extends_trans hext hextr1
        have hFleB : fanout s.blockSize < 2 ^ 64 := by
          unfold fanout
          have := Nat.div_le_self (s.blockSize - 8) 16
          omega
        have hrel2 : List.Forall₂ (fun nd g => nd.1 = groupKey g ∧
            (s2.get nd.2 = some (nodeBlockBytes s.blockSize g) ∧
              g.length < 2 ^ 64 ∧ (∀ e ∈ g, e.1 < 2 ^ 64 ∧ e.2 < 2 ^ 64)))
            (emitGroups s (partitionGroups (fanout s.blockSize) current)).1
            (partitionGroups (fanout s.blockSize) current) := by
          refine List.Forall₂.imp ?_ (forall₂_mem_right efa)
          intro nd g hx
          obtain ⟨⟨hk, h1, h2, hget⟩, hmem⟩ := hx
          refine ⟨hk, hexts2.2.2 _ _ hget, ?_, ?_⟩
          · have := hgF g hmem
            omega
          · intro e2 he2
            apply hbounds
            rw [← hFlat]
            exact List.mem_flatten.mpr ⟨g, hmem, he2⟩
        have hpar := findLE_parent
          (fun a g => s2.get a = some (nodeBlockBytes s.blockSize g) ∧
            g.length < 2 ^ 64 ∧ (∀ e ∈ g, e.1 < 2 ^ 64 ∧ e.2 < 2 ^ 64)) k
          (emitGroups s (partitionGroups (fanout s.blockSize) current)).1
          (partitionGroups (fanout s.blockSize) current)
          hrel2 hgne hflat_sorted hnext_sorted
        cases hfn : findLE k (emitGroups s (partitionGroups (fanout s.blockSize) current)).1 with
        | none =>
          have h2 := hpar.1 hfn
          rw [hFlat] at h2
          rw [h2]
          rfl
        | some e =>
          obtain ⟨g, hP, hfg⟩ := hpar.2 e hfn
          rw [hFlat] at hfg
          show stepNode s2 k e.2 = _
          unfold stepNode
          rw [hP.1]
          dsimp only
          rw [decodeNodeBlock_nodeBlockBytes _ _ hP.2.1 hP.2.2, hfg]

end BPlusTree

namespace BPlusTree

theorem construct_nil_eq (s : Storage) :
    construct s [] = ⟨s.set 1 (metaBlockBytes s.blockSize 0 0), 0, 0, 0⟩ := rfl

theorem construct_ne_eq (s : Storage) (entries : List (Nat × Bytes)) (hne : entries ≠ []) :
    construct s entries =
      ⟨(buildLayers (buildDataLayer s entries).2 (buildDataLayer s entries).1).2.2.set 1
          (metaBlockBytes s.blockSize
            (buildLayers (buildDataLayer s entries).2 (buildDataLayer s entries).1).1
            (buildLayers (buildDataLayer s entries).2 (buildDataLayer s entries).1).2.1),
        (buildLayers (buildDataLayer s entries).2 (buildDataLayer s entries).1).1,
        (buildLayers (buildDataLayer s entries).2 (buildDataLayer s entries).1).2.1,
        headAddr (buildDataLayer s entries).1⟩ := by
  unfold construct
  rw [if_neg hne]

theorem goodInput_B40 {B : Nat} {entries : List (Nat × Bytes)} (h : goodInput B entries) :
    40 ≤ B := by
  have := h.2.2.1
  unfold fanout at this
  omega

theorem forall₂_mem_right_exists {α β : Type} {R : α → β → Prop} :
    ∀ {l1 : List α} {l2 : List β}, List.Forall₂ R l1 l2 →
      ∀ b ∈ l2, ∃ a ∈ l1, R a b := by
  intro l1
  induction l1 with
  | nil => intro l2 h b hb; cases h; exact absurd hb (by simp)
  | cons x l1 ih =>
    intro l2 h b hb
    cases h with
    | cons h1 h2 =>
      rcases List.mem_cons.mp hb with rfl | hb2
      · exact ⟨x, by simp, h1⟩
      · obtain ⟨a, ha, hr⟩ := ih h2 b hb2
        exact ⟨a, List.mem_cons_of_mem _ ha, hr⟩

theorem fresh_counter (B : Nat) : (Storage.fresh B).counter = 2 := rfl

theorem fresh_blockSize (B : Nat) : (Storage.fresh B).blockSize = B := rfl

theorem buildLayers_eq_go (s : Storage) (current : List (Nat × Nat)) :
    buildLayersGo s current.length current = buildLayers s current := rfl

theorem construct_core (B : Nat) (entries : List (Nat × Bytes)) (hne : entries ≠ [])
    (h : goodInput B entries) :
    fstSorted (buildDataLayer (Storage.fresh B) entries).1 ∧
    (buildDataLayer (Storage.fresh B) entries).1.map Prod.fst = entries.map Prod.fst ∧
    List.Forall₂ (fun lf (e : Nat × Bytes) => lf.1 = e.1 ∧
      ∃ nx, readDataBlock (construct (Storage.fresh B) entries).storage lf.2 = .ok (e.2, nx))
      (buildDataLayer (Storage.fresh B) entries).1 entries ∧
    (∀ k, lookup (construct (Storage.fresh B) entries).storage k =
      match findLE k (buildDataLayer (Storage.fresh B) entries).1 with
      | none => Except.error TreeError.NotFound
      | some e =>
        if e.1 = k then
          match readDataBlock (construct (Storage.fresh B) entries).storage e.2 with
          | Except.error er => Except.error er
          | Except.ok r => Except.ok r.1
        else Except.error TreeError.NotFound) ∧
    walkData (construct (Storage.fresh B) entries).storage
      (headAddr (buildDataLayer (Storage.fresh B) entries).1) entries.length =
      Except.ok (entries.map Prod.snd) ∧
    (construct (Storage.fresh B) entries).leftmostDataBlock =
      headAddr (buildDataLayer (Storage.fresh B) entries).1 ∧
    (∀ a, (buildDataLayer (Storage.fresh B) entries).2.counter ≤ a →
      a < (buildLayers (buildDataLayer (Storage.fresh B) entries).2
        (buildDataLayer (Storage.fresh B) entries).1).2.2.counter →
      ∃ g, (construct (Storage.fresh B) entries).storage.get a =
          some (nodeBlockBytes B g) ∧ fstSorted g ∧ g ≠ [] ∧ g.length ≤ fanout B) := by
  obtain ⟨hs, hOK, hF2, hB64, hcnt⟩ := h
  have hB40 : 40 ≤ B := goodInput_B40 ⟨hs, hOK, hF2, hB64, hcnt⟩
  rw [construct_ne_eq _ _ hne] at hcnt
  simp only [set_counter] at hcnt
  obtain ⟨hnmono, hnmbs⟩ := buildLayersGo_mono
    (buildDataLayer (Storage.fresh B) entries).1.length
    (buildDataLayer (Storage.fresh B) entries).1
    (buildDataLayer (Storage.fresh B) entries).2
  rw [buildLayers_eq_go] at hnmono hnmbs
  have hdcnt : (buildDataLayer (Storage.fresh B) entries).2.counter ≤ 2 ^ 64 := by
    omega
  obtain ⟨dbs, dcnt, dget, dwf, dmap, daddr, dfa, dwalk⟩ :=
    buildDataLayer_spec entries (Storage.fresh B) hB40 (wf_fresh B) hOK hdcnt
  rw [fresh_counter] at dcnt daddr dget
  rw [fresh_blockSize] at dbs
  have hleaveslen : (buildDataLayer (Storage.fresh B) entries).1.length = entries.length := by
    have := congrArg List.length dmap
    simpa using this
  have hleavesne : (buildDataLayer (Storage.fresh B) entries).1 ≠ [] := by
    apply List.length_pos.mp
    rw [hleaveslen]
    exact List.length_pos.mpr hne
  have hleaves_sorted : fstSorted (buildDataLayer (Storage.fresh B) entries).1 := by
    apply fstSorted_of_map
    rw [dmap]
    exact List.pairwise_map.mpr hs
  have hleaves_bounds : ∀ e ∈ (buildDataLayer (Storage.fresh B) entries).1,
      e.1 < 2 ^ 64 ∧ e.2 < 2 ^ 64 := by
    intro e he
    constructor
    · obtain ⟨ent, hent, hrel⟩ := forall₂_mem_left dfa e he
      rw [hrel.1]
      exact (hOK ent hent).1
    · have := daddr e he
      omega
  have hentlen : entries.length < 2 ^ 64 := by omega
  obtain ⟨nbs, ncm, nget, nwf, nroot1, nroot2, nh1, nhlen, ncontent, ndesc⟩ :=
    buildLayersGo_spec (buildDataLayer (Storage.fresh B) entries).1.length
      (buildDataLayer (Storage.fresh B) entries).1
      (buildDataLayer (Storage.fresh B) entries).2
      (Nat.le_refl _) hleavesne hleaves_sorted (by rw [dbs]; exact hF2)
      (by rw [dbs]; exact hB64) dwf hleaves_bounds
      (by rw [buildLayers_eq_go]; exact hcnt)
  rw [buildLayers_eq_go] at nbs ncm nget nwf nroot1 nroot2 nh1 nhlen ncontent ndesc
  have hext_nd : (buildLayers (buildDataLayer (Storage.fresh B) entries).2
      (buildDataLayer (Storage.fresh B) entries).1).2.2.Extends
      (buildDataLayer (Storage.fresh B) entries).2 :=
    extends_of_below nbs ncm dwf nget
  have hget1none : (buildLayers (buildDataLayer (Storage.fresh B) entries).2
      (buildDataLayer (Storage.fresh B) entries).1).2.2.get 1 = none := by
    rw [nget 1 (by omega), dget 1 (by omega)]
    rfl
  have hst_ext : (construct (Storage.fresh B) entries).storage.Extends
      (buildLayers (buildDataLayer (Storage.fresh B) entries).2
        (buildDataLayer (Storage.fresh B) entries).1).2.2 := by
    rw [construct_ne_eq _ _ hne]
    exact extends_set_fresh _ hget1none
  have hst_ext_d : (construct (Storage.fresh B) entries).storage.Extends
      (buildDataLayer (Storage.fresh B) entries).2 :=
    extends_trans hst_ext hext_nd
  refine ⟨hleaves_sorted, dmap, ?_, ?_, dwalk _ hst_ext_d,
    by rw [construct_ne_eq _ _ hne], ?_⟩
  case refine_3
  · intro a ha1 ha2
    obtain ⟨g, hget, hgs, hgn, hgl⟩ := ncontent a ha1 ha2
    rw [dbs] at hget hgl
    refine ⟨g, ?_, hgs, hgn, hgl⟩
    rw [construct_ne_eq _ _ hne]
    show ((buildLayers (buildDataLayer (Storage.fresh B) entries).2
      (buildDataLayer (Storage.fresh B) entries).1).2.2.set 1 _).get a = _
    rw [get_set_ne _ _ (by omega)]
    exact hget
  case refine_1
  · refine List.Forall₂.imp ?_ dfa
    intro lf e hx
    exact ⟨hx.1, hx.2 _ hst_ext_d⟩
  case refine_2
  · intro k
    have hget1 : (construct (Storage.fresh B) entries).storage.get 1 =
        some (metaBlockBytes B
          (buildLayers (buildDataLayer (Storage.fresh B) entries).2
            (buildDataLayer (Storage.fresh B) entries).1).1
          (buildLayers (buildDataLayer (Storage.fresh B) entries).2
            (buildDataLayer (Storage.fresh B) entries).1).2.1) := by
      rw [construct_ne_eq _ _ hne]
      exact get_set_self _ _ _
    have hr64 : (buildLayers (buildDataLayer (Storage.fresh B) entries).2
        (buildDataLayer (Storage.fresh B) entries).1).1 < 2 ^ 64 := by
      omega
    have hh64 : (buildLayers (buildDataLayer (Storage.fresh B) entries).2
        (buildDataLayer (Storage.fresh B) entries).1).2.1 < 2 ^ 64 := by
      omega
    have hroot0 : ¬((buildLayers (buildDataLayer (Storage.fresh B) entries).2
        (buildDataLayer (Storage.fresh B) entries).1).1 = 0) := by
      omega
    have htk : (metaBlockBytes B
        (buildLayers (buildDataLayer (Storage.fresh B) entries).2
          (buildDataLayer (Storage.fresh B) entries).1).1
        (buildLayers (buildDataLayer (Storage.fresh B) entries).2
          (buildDataLayer (Storage.fresh B) entries).1).2.1).take 8 =
        encodeNumber 8 (buildLayers (buildDataLayer (Storage.fresh B) entries).2
          (buildDataLayer (Storage.fresh B) entries).1).1 := by
      unfold metaBlockBytes
      exact take8_append _ (encodeNumber_length 8 _)
    have hdk : ((metaBlockBytes B
        (buildLayers (buildDataLayer (Storage.fresh B) entries).2
          (buildDataLayer (Storage.fresh B) entries).1).1
        (buildLayers (buildDataLayer (Storage.fresh B) entries).2
          (buildDataLayer (Storage.fresh B) entries).1).2.1).drop 8).take 8 =
        encodeNumber 8 (buildLayers (buildDataLayer (Storage.fresh B) entries).2
          (buildDataLayer (Storage.fresh B) entries).1).2.1 := by
      unfold metaBlockBytes
      rw [drop8_append _ (encodeNumber_length 8 _)]
      exact take8_append _ (encodeNumber_length 8 _)
    unfold lookup
    rw [hget1]
    dsimp only
    rw [htk, hdk, decode_encodeNumber64 hr64, decode_encodeNumber64 hh64,
      if_neg hroot0]
    rw [ndesc (construct (Storage.fresh B) entries).storage k hst_ext]
    cases hfn : findLE k (buildDataLayer (Storage.fresh B) entries).1 with
    | none => rfl
    | some e => rfl

end BPlusTree

namespace BPlusTree

/-- Claim C1: for every tree constructed from a sorted input, looking up any
input key returns exactly the payload originally associated with it. -/
theorem lookup_finds_inserted (B : Nat) (entries : List (Nat × Bytes))
    (h : goodInput B entries) :
    ∀ e ∈ entries, lookup (construct (Storage.fresh B) entries).storage e.1 = .ok e.2 := by
  intro e he
  have hne : entries ≠ [] := by
    intro hc
    subst hc
    exact absurd he (by simp)
  obtain ⟨hsor, hmap, hfa, hlook, _, _, _⟩ := construct_core B entries hne h
  obtain ⟨lf, hlf, hrel⟩ := forall₂_mem_right_exists hfa e he
  obtain ⟨nx, hread⟩ := hrel.2
  have hmem : (e.1, lf.2) ∈ (buildDataLayer (Storage.fresh B) entries).1 := by
    have heta : lf = (e.1, lf.2) := by rw [← hrel.1]
    rw [← heta]
    exact hlf
  have hfind : findLE e.1 (buildDataLayer (Storage.fresh B) entries).1 = some (e.1, lf.2) :=
    findLE_self hsor hmem
  rw [hlook e.1, hfind]
  dsimp only
  rw [if_pos rfl, hread]

/-- Witness for C1: a four-entry tree at block size 64 (two node levels)
answers a point query with the original payload. -/
theorem lookup_finds_inserted_witness :
    lookup (construct (Storage.fresh 64)
      [(1, [10]), (2, [20]), (3, [30]), (4, [40])]).storage 3 = .ok [30] :=
  lookup_finds_inserted 64 [(1, [10]), (2, [20]), (3, [30]), (4, [40])]
    (by decide) (3, [30]) (by decide)

/-- Claim C4: for every tree constructed from a sorted input and every key not
in the input (also for the empty input), lookup fails with `NotFound`; the
reader checks the leaf-parent key for exact equality before returning. -/
theorem lookup_absent_notFound (B : Nat) (entries : List (Nat × Bytes))
    (h : goodInput B entries) (k : Nat) (hk : k ∉ entries.map Prod.fst) :
    lookup (construct (Storage.fresh B) entries).storage k = .error .NotFound := by
  by_cases hne : entries = []
  · subst hne
    show lookup ((Storage.fresh B).set 1 (metaBlockBytes (Storage.fresh B).blockSize 0 0)) k = _
    unfold lookup
    rw [get_set_self]
    dsimp only
    rw [show (metaBlockBytes (Storage.fresh B).blockSize 0 0).take 8 = encodeNumber 8 0 from
      take8_append _ (encodeNumber_length 8 0)]
    rw [decode_encodeNumber64 (by norm_num), if_pos rfl]
  · obtain ⟨hsor, hmap, hfa, hlook, _, _, _⟩ := construct_core B entries hne h
    rw [hlook k]
    cases hfn : findLE k (buildDataLayer (Storage.fresh B) entries).1 with
    | none => rfl
    | some e =>
      have hmem := findLE_mem hfn
      have hkey : e.1 ∈ entries.map Prod.fst := by
        rw [← hmap]
        exact List.mem_map.mpr ⟨e, hmem, rfl⟩
      have hne2 : ¬(e.1 = k) := by
        intro hceq
        rw [hceq] at hkey
        exact hk hkey
      dsimp only
      rw [if_neg hne2]

/-- Witness for C4: key 0 is absent from the four-entry tree and the lookup
reports `NotFound`. -/
theorem lookup_absent_notFound_witness :
    lookup (construct (Storage.fresh 64)
      [(1, [10]), (2, [20]), (3, [30]), (4, [40])]).storage 0 = .error .NotFound :=
  lookup_absent_notFound 64 [(1, [10]), (2, [20]), (3, [30]), (4, [40])]
    (by decide) 0 (by decide)

/-- Claim C10: walking the data layer from `leftmostDataBlock` with
`readDataBlock` yields every input entry's complete payload exactly once, in
ascending key order, each step's `next` addressing the following entry's
chain head. -/
theorem walkData_reads_all (B : Nat) (entries : List (Nat × Bytes))
    (h : goodInput B entries) :
    walkData (construct (Storage.fresh B) entries).storage
      (construct (Storage.fresh B) entries).leftmostDataBlock entries.length =
      .ok (entries.map Prod.snd) := by
  by_cases hne : entries = []
  · subst hne
    rfl
  · obtain ⟨_, _, _, _, hwalk, hleft, _⟩ := construct_core B entries hne h
    rw [hleft]
    exact hwalk

/-- Witness for C10: the walk over the four-entry tree returns the four
payloads in key order. -/
theorem walkData_reads_all_witness :
    walkData (construct (Storage.fresh 64)
      [(1, [10]), (2, [20]), (3, [30]), (4, [40])]).storage
      (construct (Storage.fresh 64)
        [(1, [10]), (2, [20]), (3, [30]), (4, [40])]).leftmostDataBlock 4 =
      .ok [[10], [20], [30], [40]] :=
  walkData_reads_all 64 [(1, [10]), (2, [20]), (3, [30]), (4, [40])] (by decide)

theorem pairwise_lt_of_flatten :
    ∀ (gs : List (List Nat)), gs.flatten.Pairwise (fun a b => a < b) →
      ∀ g ∈ gs, g.Pairwise (fun a b => a < b) := by
  intro gs
  induction gs with
  | nil => intro _ g hg; exact absurd hg (by simp)
  | cons g0 gs ih =>
    intro hs g hg
    rw [List.flatten_cons] at hs
    obtain ⟨hg0, hgs, _⟩ := List.pairwise_append.mp hs
    rcases List.mem_cons.mp hg with rfl | hg2
    · exact hg0
    · exact ih hgs g hg2

theorem headKey_heads_sorted :
    ∀ (gs : List (List Nat)), (∀ g ∈ gs, g ≠ []) →
      gs.flatten.Pairwise (fun a b => a < b) →
      (gs.map headKey).Pairwise (fun a b => a < b) := by
  intro gs
  induction gs with
  | nil => intro _ _; simp
  | cons g gs ih =>
    intro hne hs
    rw [List.flatten_cons] at hs
    obtain ⟨hg, hgs, hcross⟩ := List.pairwise_append.mp hs
    rw [List.map_cons]
    refine List.pairwise_cons.mpr ⟨?_, ih (fun x hx => hne x (by simp [hx])) hgs⟩
    intro k2 hk2
    obtain ⟨g2, hg2, rfl⟩ := List.mem_map.mp hk2
    obtain ⟨e0, g1, rfl⟩ := List.exists_cons_of_ne_nil (hne g (by simp))
    obtain ⟨e2, g3, rfl⟩ := List.exists_cons_of_ne_nil (hne g2 (by simp [hg2]))
    show e0 < e2
    exact hcross e0 (by simp) e2 (List.mem_flatten.mpr ⟨e2 :: g3, hg2, by simp⟩)

theorem levelBlocksGo_sorted {F : Nat} (hF : 2 ≤ F) :
    ∀ (fuel : Nat) (ks : List Nat), ks.length ≤ fuel →
      ks.Pairwise (fun a b => a < b) →
      ∀ lvl ∈ levelBlocksGo F fuel ks,
        (∀ blk ∈ lvl, blk.Pairwise (fun a b => a < b)) ∧
        lvl.flatten.Pairwise (fun a b => a < b) := by
  intro fuel
  induction fuel with
  | zero =>
    intro ks _ hks lvl hlvl
    simp only [levelBlocksGo, List.mem_singleton] at hlvl
    subst hlvl
    constructor
    · intro blk hblk
      simp only [List.mem_singleton] at hblk
      subst hblk
      exact hks
    · simpa using hks
  | succ fuel ih =>
    intro ks hlen hks lvl hlvl
    simp only [levelBlocksGo] at hlvl
    by_cases hcond : ks.length ≤ F ∨ F < 2
    · rw [if_pos hcond] at hlvl
      simp only [List.mem_singleton] at hlvl
      subst hlvl
      constructor
      · intro blk hblk
        simp only [List.mem_singleton] at hblk
        subst hblk
        exact hks
      · simpa using hks
    · rw [if_neg hcond] at hlvl
      push_neg at hcond
      obtain ⟨hlenF, _⟩ := hcond
      have hF1 : (1 : Nat) ≤ F := by omega
      have hksne : ks ≠ [] := by
        apply List.length_pos.mp
        omega
      have hflat : (partitionGroups F ks).flatten = ks := partitionGroups_flatten hF1 ks
      have hgne := partitionGroups_ne_nil hF1 ks hksne
      rcases List.mem_cons.mp hlvl with rfl | hlvl2
      · constructor
        · intro blk hblk
          exact pairwise_lt_of_flatten _ (by rw [hflat]; exact hks) blk hblk
        · rw [hflat]
          exact hks
      · have hheads : ((partitionGroups F ks).map headKey).Pairwise (fun a b => a < b) :=
          headKey_heads_sorted _ hgne (by rw [hflat]; exact hks)
        have hlenmap : ((partitionGroups F ks).map headKey).length ≤ fuel := by
          rw [List.length_map]
          have := partitionGroups_length_lt hF ks hlenF
          omega
        exact ih _ hlenmap hheads lvl hlvl2

/-- Claim C6: in every constructed tree, at every level of the node layer the
keys within each node block are strictly ascending, across sibling blocks the
keys are monotonically increasing (the whole level is sorted), and every node
block written by the bulk loader stores a sorted, nonempty entry list of at
most `F` entries. -/
theorem node_layer_sorted (B : Nat) (entries : List (Nat × Bytes))
    (h : goodInput B entries) (hne : entries ≠ []) :
    (∀ lvl ∈ levelBlocks (fanout B) (entries.map Prod.fst),
      (∀ blk ∈ lvl, blk.Pairwise (fun a b => a < b)) ∧
      lvl.flatten.Pairwise (fun a b => a < b)) ∧
    (∀ a, (buildDataLayer (Storage.fresh B) entries).2.counter ≤ a →
      a < (buildLayers (buildDataLayer (Storage.fresh B) entries).2
        (buildDataLayer (Storage.fresh B) entries).1).2.2.counter →
      ∃ g, (construct (Storage.fresh B) entries).storage.get a =
          some (nodeBlockBytes B g) ∧ fstSorted g ∧ g ≠ [] ∧ g.length ≤ fanout B) := by
  constructor
  · intro lvl hlvl
    exact levelBlocksGo_sorted h.2.2.1 (entries.map Prod.fst).length
      (entries.map Prod.fst) (Nat.le_refl _) (List.pairwise_map.mpr h.1) lvl hlvl
  · exact (construct_core B entries hne h).2.2.2.2.2.2

/-- Witness for C6 on the four-entry tree at block size 64: the leaf-parent
level is sorted across blocks, and the node block at address 6 stores a
sorted, nonempty list of at most `F` entries. -/
theorem node_layer_sorted_witness :
    (partitionGroups (fanout 64) ([(1, [10]), (2, [20]), (3, [30]),
        (4, [40])].map (Prod.fst (β := Bytes)))).flatten.Pairwise
      (fun a b => a < b) ∧
    ∃ g, (construct (Storage.fresh 64)
        [(1, [10]), (2, [20]), (3, [30]), (4, [40])]).storage.get 6 =
          some (nodeBlockBytes 64 g) ∧ fstSorted g ∧ g ≠ [] ∧ g.length ≤ fanout 64 :=
  ⟨((node_layer_sorted 64 [(1, [10]), (2, [20]), (3, [30]), (4, [40])]
      (by decide) (by decide)).1 _ (by decide)).2,
   (node_layer_sorted 64 [(1, [10]), (2, [20]), (3, [30]), (4, [40])]
      (by decide) (by decide)).2 6 (by decide) (by decide)⟩

end BPlusTree
